import Mathlib

/-!
Shallow embedding of the highlight curation-and-remapping engine of
`src/backend/server.ts` (PetDay).

Modelling conventions:
* All timestamps are natural numbers of seconds.  In the source, segment
  boundaries travel as `M:SS` strings and every arithmetic step first applies
  `timeToSeconds` and finally `secondsToTime`; for the integer second values
  produced by the engine these two functions are mutually inverse, so the
  embedding works directly on the second values.
* `undefined` source tags and the literal string `'ai'` are handled
  identically by every consumer (`getSourcePriority` defaults to 10,
  the friend/scenery membership tests fail on both), so both are modelled
  as `Source.ai`.
* JavaScript's `x || y` on numbers treats `0` as missing; this is `jsOr`.
  On option-like fields it is `jsOrOpt`.
* Durations are summed in `Int` (`segDur`), since the source subtracts raw
  numbers; segment endpoints themselves stay in `Nat` (`Math.max(0, ...)`
  is exactly truncated subtraction on naturals).
-/

namespace PetDay

/-- Source tag of a segment (`clip.source` strings in the server). -/
inductive Source : Type
  | ai
  | safety
  | combo      -- the string 'friend+scenery'
  | friend
  | food
  | scenery
deriving DecidableEq, Repr

/-- A highlight segment: `{start, end, source, score, friendName,
isHighQuality, isNearFriend}` (the `end` field is called `stop` because
`end` is reserved in Lean). -/
structure Segment where
  start : Nat
  stop : Nat
  source : Source := .ai
  score : Nat := 0
  friendName : Option String := none
  isHighQuality : Bool := false
  isNearFriend : Bool := false
deriving DecidableEq, Repr

/-- `timeToSeconds(seg.end) - timeToSeconds(seg.start)` as an integer. -/
def segDur (s : Segment) : Int := (s.stop : Int) - (s.start : Int)

/-- `calculateDuration`: sum of `end - start` over the list. -/
def totalDuration (l : List Segment) : Int := (l.map segDur).sum

/-- `segments.some(seg => t >= seg.start && t <= seg.end)`. -/
def coveredB (l : List Segment) (t : Nat) : Bool :=
  l.any (fun s => decide (s.start ≤ t) && decide (t ≤ s.stop))

/-- JavaScript `a || b` on numbers (0 is falsy). -/
def jsOr (a b : Nat) : Nat := if a = 0 then b else a

/-- JavaScript `a || b` on possibly-missing values. -/
def jsOrOpt (a b : Option String) : Option String :=
  match a with
  | some x => some x
  | none => b

/-- Stable insertion used by the ascending-key sorts (`sort((a,b) => key(a)-key(b))`,
which V8 implements stably). -/
def insertByKey {α : Type} (key : α → Nat) (x : α) : List α → List α
  | [] => [x]
  | y :: ys => if key y < key x then y :: insertByKey key x ys else x :: y :: ys

/-- Stable ascending sort by a numeric key. -/
def sortByKey {α : Type} (key : α → Nat) : List α → List α
  | [] => []
  | x :: xs => insertByKey key x (sortByKey key xs)

/-- Stable insertion for descending-key sorts (`sort((a,b) => key(b)-key(a))`). -/
def insertByKeyDesc {α : Type} (key : α → Nat) (x : α) : List α → List α
  | [] => [x]
  | y :: ys => if key x < key y then y :: insertByKeyDesc key x ys else x :: y :: ys

/-- Stable descending sort by a numeric key. -/
def sortByKeyDesc {α : Type} (key : α → Nat) : List α → List α
  | [] => []
  | x :: xs => insertByKeyDesc key x (sortByKeyDesc key xs)

/-- Is the tag a friend-ish tag (`'friend'` or `'friend+scenery'`)? -/
def isFriendSource : Source → Bool
  | .friend => true
  | .combo => true
  | _ => false

/-- Is the tag a scenery-ish tag (`'scenery'` or `'friend+scenery'`)? -/
def isScenerySource : Source → Bool
  | .scenery => true
  | .combo => true
  | _ => false

/-- `getSourcePriority` (server.ts lines 1703-1712). -/
def getSourcePriority : Source → Nat
  | .safety => 100
  | .combo => 95
  | .friend => 80
  | .food => 60
  | .scenery => 40
  | _ => 10

/-- The body of the merge branch of `mergeOverlappingSegments`
(server.ts lines 1727-1751): extend the end, detect the friend+scenery
combination, otherwise keep the higher-priority source, OR the quality
flags, take the max score. -/
def mergeSeg (current next : Segment) : Segment :=
  let stop' := if current.stop < next.stop then next.stop else current.stop
  let hasFriend := isFriendSource current.source || isFriendSource next.source
  let hasScenery := isScenerySource current.source || isScenerySource next.source
  let c1 :=
    if hasFriend && hasScenery then
      { current with
        stop := stop'
        source := .combo
        friendName := jsOrOpt current.friendName next.friendName
        isHighQuality := current.isHighQuality || next.isHighQuality }
    else if getSourcePriority current.source < getSourcePriority next.source then
      { current with
        stop := stop'
        source := next.source
        friendName := jsOrOpt next.friendName current.friendName }
    else
      { current with stop := stop' }
  { c1 with
    isHighQuality := c1.isHighQuality || next.isHighQuality
    score := max c1.score next.score }

/-- The scan of `mergeOverlappingSegments` with `current` as accumulator. -/
def mergeLoop (current : Segment) : List Segment → List Segment
  | [] => [current]
  | next :: rest =>
    if next.start ≤ current.stop + 2 then mergeLoop (mergeSeg current next) rest
    else current :: mergeLoop next rest

/-- `mergeOverlappingSegments` (server.ts lines 1714-1760). -/
def mergeOverlappingSegments : List Segment → List Segment
  | [] => []
  | s :: rest => mergeLoop s rest

/-- A single occurrence of a recurring subject; duration 0 models a missing
(falsy) duration field. -/
structure Occurrence where
  time : Nat
  duration : Nat := 0
deriving DecidableEq, Repr

/-- A recurring-subject record (`friend`). -/
structure Friend where
  name : String
  timestamps : List Occurrence := []
  duration : Nat := 0
deriving DecidableEq, Repr

/-- A scenery moment. -/
structure SceneryMoment where
  timestamp : Nat
  stayDuration : Nat := 0
  isNearFriend : Bool := false
deriving DecidableEq, Repr

/-- A feeding event. -/
structure FoodEvent where
  timestamp : Nat
deriving DecidableEq, Repr

/-- Safety alert severity. -/
inductive AlertType : Type
  | danger
  | warning
deriving DecidableEq, Repr

/-- A safety alert. -/
structure SafetyAlert where
  timestamp : Nat
  type : AlertType
deriving DecidableEq, Repr

/-- The segment synthesized for an uncovered friend occurrence
(server.ts lines 1791-1800). -/
def mkFriendSegment (D buffer : Nat) (f : Friend) (o : Occurrence) : Segment :=
  let friendDuration := jsOr o.duration (jsOr f.duration 5)
  { start := o.time - buffer
    stop := min D (o.time + max friendDuration buffer)
    source := .friend
    friendName := some f.name }

/-- The per-occurrence loop body of `ensureFriendsInHighlights`: append a
synthesized segment when the occurrence is uncovered. -/
def friendOccStep (D buffer : Nat) (f : Friend) (acc : List Segment) (o : Occurrence) :
    List Segment :=
  if coveredB acc o.time then acc else acc ++ [mkFriendSegment D buffer f o]

/-- The per-friend loop body of `ensureFriendsInHighlights`. -/
def friendStep (D buffer : Nat) (acc : List Segment) (f : Friend) : List Segment :=
  f.timestamps.foldl (friendOccStep D buffer f) acc

/-- The double loop of `ensureFriendsInHighlights` before sorting/merging. -/
def addFriendSegments (D buffer : Nat) (fs : List Friend) (segs : List Segment) :
    List Segment :=
  fs.foldl (friendStep D buffer) segs

/-- `ensureFriendsInHighlights` (server.ts lines 1762-1812). -/
def ensureFriendsInHighlights (fs : List Friend) (segs : List Segment)
    (D buffer : Nat) : List Segment :=
  if fs = [] then segs
  else mergeOverlappingSegments (sortByKey Segment.start (addFriendSegments D buffer fs segs))

/-- Upgrade-in-place of the first segment covering a scenery time
(server.ts lines 1844-1858). -/
def upgradeCovering (sceneTime : Nat) (hq : Bool) : List Segment → List Segment
  | [] => []
  | seg :: rest =>
    if decide (seg.start ≤ sceneTime) && decide (sceneTime ≤ seg.stop) then
      let seg1 :=
        if seg.source = .friend then { seg with source := .combo }
        else if seg.source = .ai then { seg with source := .scenery }
        else seg
      let seg2 := if hq then { seg1 with isHighQuality := true } else seg1
      seg2 :: rest
    else seg :: upgradeCovering sceneTime hq rest

/-- One iteration of the scenery loop of `ensureSceneryInHighlights`
(server.ts lines 1832-1890). -/
def sceneryStep (D buffer : Nat) (segs : List Segment) (scene : SceneryMoment) :
    List Segment :=
  let sceneTime := scene.timestamp
  let sceneDuration := jsOr scene.stayDuration 5
  let hq := decide (5 ≤ sceneDuration)
  if coveredB segs sceneTime then upgradeCovering sceneTime hq segs
  else
    let clipDuration := min sceneDuration 5
    let newSegStart := sceneTime - buffer
    let newSegEnd := min D (sceneTime + clipDuration)
    let hasNearbyFriend := segs.any (fun seg =>
      isFriendSource seg.source &&
      ((decide (newSegEnd ≤ seg.start) && decide (seg.start - newSegEnd ≤ 10)) ||
       (decide (seg.stop ≤ newSegStart) && decide (newSegStart - seg.stop ≤ 10))))
    segs ++ [{ start := newSegStart
               stop := newSegEnd
               source := .scenery
               isHighQuality := hq
               isNearFriend := hasNearbyFriend }]

/-- `ensureSceneryInHighlights` (server.ts lines 1814-1894). -/
def ensureSceneryInHighlights (scs : List SceneryMoment) (segs : List Segment)
    (D buffer : Nat) : List Segment :=
  if scs = [] then segs
  else
    let significant := scs.filter (fun s => decide (3 ≤ s.stayDuration))
    mergeOverlappingSegments (sortByKey Segment.start
      (significant.foldl (sceneryStep D buffer) segs))

/-- The segment synthesized for an uncovered feeding event
(server.ts lines 1918-1929). -/
def mkFoodSegment (D buffer : Nat) (t : Nat) : Segment :=
  { start := t - buffer, stop := min D (t + 3), source := .food }

/-- The per-event loop body of `ensureFoodInHighlights`. -/
def foodStep (D buffer : Nat) (acc : List Segment) (e : FoodEvent) : List Segment :=
  if coveredB acc e.timestamp then acc else acc ++ [mkFoodSegment D buffer e.timestamp]

/-- `ensureFoodInHighlights` (server.ts lines 1896-1937). -/
def ensureFoodInHighlights (es : List FoodEvent) (segs : List Segment)
    (D buffer : Nat) : List Segment :=
  if es = [] then segs
  else
    mergeOverlappingSegments (sortByKey Segment.start (es.foldl (foodStep D buffer) segs))

/-- The segment synthesized for an uncovered safety alert
(server.ts lines 1961-1972): danger gets a 4s clip, warning 3s. -/
def mkSafetySegment (D buffer : Nat) (a : SafetyAlert) : Segment :=
  let clipDuration := match a.type with
    | .danger => 4
    | .warning => 3
  { start := a.timestamp - buffer
    stop := min D (a.timestamp + clipDuration)
    source := .safety }

/-- The per-alert loop body of `ensureSafetyAlertsInHighlights`. -/
def safetyStep (D buffer : Nat) (acc : List Segment) (a : SafetyAlert) : List Segment :=
  if coveredB acc a.timestamp then acc else acc ++ [mkSafetySegment D buffer a]

/-- `ensureSafetyAlertsInHighlights` (server.ts lines 1939-1980). -/
def ensureSafetyAlertsInHighlights (as_ : List SafetyAlert) (segs : List Segment)
    (D buffer : Nat) : List Segment :=
  if as_ = [] then segs
  else
    mergeOverlappingSegments (sortByKey Segment.start (as_.foldl (safetyStep D buffer) segs))

/-- Stage-1 trimming's importance test (server.ts lines 2222-2230). -/
def coversImportantContent (friendTimes hqSceneryTimes : List Nat) (clip : Segment) :
    Bool :=
  friendTimes.any (fun t => decide (clip.start ≤ t) && decide (t ≤ clip.stop)) ||
  hqSceneryTimes.any (fun t => decide (clip.start ≤ t) && decide (t ≤ clip.stop))

/-- `getEnhancedScore` (server.ts lines 2233-2240). -/
def getEnhancedScore (friendTimes hqSceneryTimes : List Nat) (clip : Segment) : Nat :=
  clip.score + (if coversImportantContent friendTimes hqSceneryTimes clip then 50 else 0)

/-- Stage-1 trimming (server.ts lines 2209-2259), run only when the raw
candidate set exceeds 120s. -/
def stage1Trim (ai : List Segment) (friends : List Friend)
    (scenery : List SceneryMoment) : List Segment :=
  let friendTimes :=
    (friends.map (fun f => f.timestamps.map Occurrence.time)).flatten.filter (· ≠ 0)
  let hqSceneryTimes :=
    (scenery.filter (fun s => decide (5 ≤ s.stayDuration))).map SceneryMoment.timestamp
  let sorted := sortByKeyDesc (getEnhancedScore friendTimes hqSceneryTimes) ai
  let kept := (sorted.foldl
    (fun (st : List Segment × Int) clip =>
      if st.2 + segDur clip ≤ 120 then (st.1 ++ [clip], st.2 + segDur clip) else st)
    ([], 0)).1
  sortByKey Segment.start kept

/-- The stayDuration cap applied between the two trim stages
(server.ts lines 2262-2269). -/
def capStay (s : SceneryMoment) : SceneryMoment :=
  if 15 < s.stayDuration then { s with stayDuration := 15 } else s

/-- Stage-2 clip priority (server.ts lines 2311-2323). -/
def getPriority (clip : Segment) : Nat :=
  if clip.source = .safety then 100
  else if clip.source = .combo then 95
  else if clip.source = .scenery ∧ clip.isNearFriend then 85
  else if clip.source = .friend then 80
  else if clip.source = .scenery ∧ clip.isHighQuality then 75
  else if clip.source = .food then 60
  else if clip.source = .scenery then 50
  else if 15 ≤ clip.score then 30
  else if 10 ≤ clip.score then 20
  else 10

/-- Accumulator of the Stage-2 accept loop. -/
structure Stage2State where
  kept : List Segment
  current : Int
  friendsIncluded : List String
deriving Repr

/-- One iteration of the Stage-2 accept loop (server.ts lines 2332-2371). -/
def stage2Step (st : Stage2State) (clip0 : Segment) : Stage2State :=
  let isOnly :=
    decide (clip0.source = .friend) &&
    (match clip0.friendName with
     | some n => !(st.friendsIncluded.contains n)
     | none => false)
  let cd :=
    if 120 < st.current + segDur clip0 then
      let remaining : Int := 120 - st.current
      if clip0.source = .safety ∧ 3 ≤ remaining then
        ({ clip0 with stop := clip0.start + (max 3 remaining).toNat }, remaining)
      else if isOnly = true ∧ 3 ≤ remaining then
        ({ clip0 with stop := clip0.start + (max 3 remaining).toNat }, remaining)
      else (clip0, segDur clip0)
    else (clip0, segDur clip0)
  if st.current + cd.2 ≤ 120 ∨ (isOnly = true ∧ st.current + cd.2 ≤ 125) then
    { kept := st.kept ++ [cd.1]
      current := st.current + cd.2
      friendsIncluded :=
        match cd.1.friendName with
        | some n => st.friendsIncluded ++ [n]
        | none => st.friendsIncluded }
  else st

/-- Stage-2 trimming (server.ts lines 2310-2377). -/
def stage2Trim (hl : List Segment) : List Segment :=
  let sorted := sortByKeyDesc getPriority hl
  let final := sorted.foldl stage2Step ⟨[], 0, []⟩
  sortByKey Segment.start final.kept

/-- The final duration check guarding Stage 2 (server.ts lines 2304-2378). -/
def budgetStage (hl : List Segment) : List Segment :=
  if 120 < totalDuration hl then stage2Trim hl else hl

/-- Key of the best-scenery choice of the fallback: prefer near-friend, then
longest stay (server.ts lines 2399-2404); stayDuration is capped at 15 by then,
so the key is faithful to the two-level comparator. -/
def sceneryFallbackKey (s : SceneryMoment) : Nat :=
  (if s.isNearFriend then 1000000 else 0) + s.stayDuration

/-- The scenery zero-coverage fallback (server.ts lines 2381-2425). -/
def sceneryFallback (scs : List SceneryMoment) (D : Nat) (hl : List Segment) :
    List Segment :=
  if scs = [] then hl
  else
    let significant := scs.filter (fun s => decide (3 ≤ s.stayDuration))
    if significant = [] then hl
    else if significant.any (fun s => coveredB hl s.timestamp) then hl
    else
      match (sortByKeyDesc sceneryFallbackKey significant).head? with
      | none => hl
      | some bestScene =>
        let t := bestScene.timestamp
        let clipLen := min (jsOr bestScene.stayDuration 3) 5
        let s0 := t - 2
        let e0 := min D (t + clipLen)
        if totalDuration hl + ((e0 : Int) - (s0 : Int)) ≤ 125 then
          sortByKey Segment.start
            (hl ++ [{ start := s0
                      stop := e0
                      source := .scenery
                      isHighQuality := true }])
        else hl

/-- The four Coverage Guarantor passes in the server's order
(friends buffer 3, scenery buffer 2, food buffer 1, safety buffer 1;
server.ts lines 2271-2301). -/
def guarantorStage (friends : List Friend) (scenery : List SceneryMoment)
    (food : List FoodEvent) (alerts : List SafetyAlert) (D : Nat)
    (hl : List Segment) : List Segment :=
  ensureSafetyAlertsInHighlights alerts
    (ensureFoodInHighlights food
      (ensureSceneryInHighlights scenery
        (ensureFriendsInHighlights friends hl D 3) D 2) D 1) D 1

/-- The highlight pipeline up to and including the final Budget Trim
(server.ts lines 2192-2378): coarse Stage-1 trim when the raw candidates
exceed 120s, the stayDuration cap, the four Coverage Guarantors, Stage 2. -/
def processHighlightsCore (ai : List Segment) (friends : List Friend)
    (scenery0 : List SceneryMoment) (food : List FoodEvent)
    (alerts : List SafetyAlert) (D : Nat) : List Segment :=
  let hl0 := if 120 < totalDuration ai then stage1Trim ai friends scenery0 else ai
  let scenery := scenery0.map capStay
  budgetStage (guarantorStage friends scenery food alerts D hl0)

/-- The complete highlight pipeline: core stages followed by the scenery
zero-coverage fallback (server.ts lines 2192-2425). -/
def processHighlights (ai : List Segment) (friends : List Friend)
    (scenery0 : List SceneryMoment) (food : List FoodEvent)
    (alerts : List SafetyAlert) (D : Nat) : List Segment :=
  sceneryFallback (scenery0.map capStay) D
    (processHighlightsCore ai friends scenery0 food alerts D)

/-- The scan of `mapToHighlightTime` carrying the running highlight offset. -/
def mapGo (t : Nat) (offset : Nat) : List Segment → Option Nat
  | [] => none
  | seg :: rest =>
    if decide (seg.start ≤ t) && decide (t ≤ seg.stop) then
      some (offset + (t - seg.start))
    else mapGo t (offset + (seg.stop - seg.start)) rest

/-- `mapToHighlightTime` (server.ts lines 2040-2059). -/
def mapToHighlightTime (t : Nat) (hl : List Segment) : Option Nat := mapGo t 0 hl

/-- An annotation item as seen by `mapAndFilterForHighlight`: its time field,
its original-time sibling field (if already present) and the mapped marker. -/
structure MappedItem where
  time : Nat
  original : Option Nat := none
  isMapped : Bool := false
deriving DecidableEq, Repr

/-- `mapAndFilterForHighlight` (server.ts lines 1679-1700). -/
def mapAndFilterForHighlight (xs : List MappedItem) (hl : List Segment) :
    List MappedItem :=
  if hl = [] then []
  else xs.filterMap (fun it =>
    let sourceTime := it.original.getD it.time
    match mapToHighlightTime sourceTime hl with
    | none => none
    | some m => some ⟨m, some sourceTime, true⟩)

/-- JavaScript `Math.round` of the exact fraction `n / d` (with `d > 0`):
`Math.round(x) = ⌊x + 1/2⌋`, and `⌊n/d + 1/2⌋ = (2n + d) div (2d)` in
floor division.  Working on the exact integer fraction keeps the embedding
computable; `jsRoundFrac_eq_floor` states the correspondence. -/
def jsRoundFrac (n d : ℤ) : ℤ := (2 * n + d) / (2 * d)

/-- JavaScript `Math.round` on a rational: half-up, ties toward plus
infinity; see `jsRound_eq_floor`. -/
def jsRound (q : ℚ) : ℤ := jsRoundFrac q.num q.den

/-- Characterization of `Int.ediv` by bounds, for a positive divisor. -/
theorem ediv_eq_of_bounds (n d z : Int) (hd : 0 < d) (h1 : d * z ≤ n)
    (h2 : n < d * (z + 1)) : n / d = z := by
  have hmod := Int.ediv_add_emod n d
  have hm0 := Int.emod_nonneg n (ne_of_gt hd)
  have hm1 := Int.emod_lt_of_pos n hd
  nlinarith [hmod, hm0, hm1]

/-- `jsRoundFrac n d` is the floor of `n/d + 1/2` over the rationals. -/
theorem jsRoundFrac_eq_floor (n d : ℤ) (hd : 0 < d) :
    jsRoundFrac n d = ⌊(n : ℚ) / (d : ℚ) + 1 / 2⌋ := by
  have hdq : (0 : ℚ) < (d : ℚ) := by exact_mod_cast hd
  have h2d : (0 : ℚ) < 2 * (d : ℚ) := by positivity
  have hval : (n : ℚ) / (d : ℚ) + 1 / 2 =
      ((2 * n + d : ℤ) : ℚ) / ((2 * d : ℤ) : ℚ) := by
    push_cast
    field_simp
    ring
  rw [hval]
  symm
  have h2dz : (0 : ℤ) < 2 * d := by omega
  have hmod := Int.ediv_add_emod (2 * n + d) (2 * d)
  have hm0 := Int.emod_nonneg (2 * n + d) (ne_of_gt h2dz)
  have hm1 := Int.emod_lt_of_pos (2 * n + d) h2dz
  have hb1 : ((2 * n + d) / (2 * d)) * (2 * d) ≤ 2 * n + d := by nlinarith [hmod, hm0]
  have hb2 : 2 * n + d < (((2 * n + d) / (2 * d)) + 1) * (2 * d) := by
    nlinarith [hmod, hm1]
  rw [Int.floor_eq_iff]
  constructor
  · rw [le_div_iff₀ (by exact_mod_cast h2dz)]
    unfold jsRoundFrac
    exact_mod_cast hb1
  · rw [div_lt_iff₀ (by exact_mod_cast h2dz)]
    unfold jsRoundFrac
    exact_mod_cast hb2

/-- `jsRound` is the floor of `q + 1/2`. -/
theorem jsRound_eq_floor (q : ℚ) : jsRound q = ⌊q + 1 / 2⌋ := by
  unfold jsRound
  rw [jsRoundFrac_eq_floor q.num q.den (by exact_mod_cast Nat.pos_of_ne_zero q.den_nz),
    Int.cast_natCast, Rat.num_div_den]

/-- `clamp(value, lo, hi) = Math.min(hi, Math.max(lo, value))`
(server.ts lines 1489-1491), on integers. -/
def clampI (x lo hi : ℤ) : ℤ := min hi (max lo x)

/-- A raw mood entry as the normalizer sees it after JavaScript number
coercion: `sec` is `timeToSeconds(item.name)` (`none` when not finite) and
`value` is `Number(item.value ?? 50)` (`none` when not finite); a missing
`value` field coerces to `some 50` before this point. -/
structure MoodRaw where
  sec : Option ℚ := none
  value : Option ℚ := none
deriving DecidableEq, Repr

/-- A cleaned mood control point or a resampled output point
(`{name, value}` with the name parsed back to seconds). -/
structure MoodPoint where
  sec : Nat
  value : Nat
deriving DecidableEq, Repr

/-- Rounding, clamping and the non-finite filter of `normalizeMoodData`
(server.ts lines 1540-1547); entries whose time or value is not finite are
dropped. -/
def cleanMood (md : List MoodRaw) (D : Nat) : List MoodPoint :=
  md.filterMap (fun r =>
    match r.sec, r.value with
    | some s, some v =>
      some ⟨(clampI (jsRound s) 0 (D : Int)).toNat, (clampI (jsRound v) 0 100).toNat⟩
    | _, _ => none)

/-- Same-second deduplication keeping the later value (the `Map` rebuild of
server.ts lines 1550-1554), on a list already stably sorted by second. -/
def dedupLast : List MoodPoint → List MoodPoint
  | [] => []
  | [p] => [p]
  | p :: q :: rest =>
    if p.sec = q.sec then dedupLast (q :: rest) else p :: dedupLast (q :: rest)

/-- Forced boundary point at `t = 0` (server.ts lines 1559-1563). -/
def fixFirst : List MoodPoint → List MoodPoint
  | [] => []
  | p :: rest => if 0 < p.sec then ⟨0, p.value⟩ :: p :: rest else { p with sec := 0 } :: rest

/-- Forced boundary point at `t = D` (server.ts lines 1564-1568): walk to
the last control point, then either append `⟨D, last.value⟩` (when the list
ends before `D`) or move the last point's second to `D`. -/
def fixLast (D : Nat) : List MoodPoint → List MoodPoint
  | [] => []
  | [p] => if p.sec < D then [p, ⟨D, p.value⟩] else [⟨D, p.value⟩]
  | p :: q :: rest => p :: fixLast D (q :: rest)

/-- The cleaned control-point list of `normalizeMoodData` (lines 1540-1569):
clean, sort, deduplicate, then either substitute the default flat pair or
force both boundary points. -/
def moodControlPoints (md : List MoodRaw) (D : Nat) : List MoodPoint :=
  match dedupLast (sortByKey MoodPoint.sec (cleanMood md D)) with
  | [] => [⟨0, 50⟩, ⟨D, 50⟩]
  | p :: rest => fixLast D (fixFirst (p :: rest))

/-- Interpolation scan of `interpolateMoodValue` (`left` is `points[i-1]`,
server.ts lines 1522-1531).  The interpolated real number
`left + (right-left) * (t-l)/(r-l)` is carried as the exact integer
fraction `(left*(r-l) + (right-left)*(t-l), r-l)`; constant branches use
denominator 1. -/
def interpGo (left : MoodPoint) (t : Nat) : List MoodPoint → Int × Int
  | [] => ((left.value : Int), 1)
  | r :: rest =>
    if t ≤ r.sec then
      if r.sec ≤ left.sec then ((r.value : Int), 1)
      else ((left.value : Int) * ((r.sec : Int) - (left.sec : Int)) +
              ((r.value : Int) - (left.value : Int)) * ((t : Int) - (left.sec : Int)),
            (r.sec : Int) - (left.sec : Int))
    else interpGo r t rest

/-- `interpolateMoodValue` (server.ts lines 1517-1533), as an exact
fraction. -/
def interpolateMoodValue (ps : List MoodPoint) (t : Nat) : Int × Int :=
  match ps with
  | [] => (50, 1)
  | [p] => ((p.value : Int), 1)
  | p :: rest => if t ≤ p.sec then ((p.value : Int), 1) else interpGo p t rest

/-- The resampling grid size `clamp(round(D/12), 20, 30)` (the fraction
`D/12` rounded via `jsRoundFrac`). -/
def moodTargetCount (safeD : Nat) : Nat :=
  (clampI (jsRoundFrac (safeD : Int) 12) 20 30).toNat

/-- `normalizeMoodData` (server.ts lines 1535-1580); `videoDuration` is the
already-rounded source duration in seconds.  The grid second
`Math.round((i*D)/(targetCount-1))` and the sample value
`clamp(Math.round(interpolated), 0, 100)` are computed through the exact
fractions. -/
def normalizeMoodData (md : List MoodRaw) (videoDuration : Nat) : List MoodPoint :=
  let safeD := max 1 videoDuration
  let points := moodControlPoints md safeD
  let targetCount := moodTargetCount safeD
  (List.range targetCount).map (fun i =>
    let sec := if i = targetCount - 1 then safeD
               else (jsRoundFrac ((i * safeD : Nat) : Int)
                 (((targetCount - 1 : Nat)) : Int)).toNat
    let v := interpolateMoodValue points sec
    ⟨sec, (clampI (jsRoundFrac v.1 v.2) 0 100).toNat⟩)

/-! ### Helper lemmas about the stable sorts -/

theorem insertByKey_perm {α : Type} (key : α → Nat) (x : α) (l : List α) :
    List.Perm (insertByKey key x l) (x :: l) := by
  induction l with
  | nil => simp [insertByKey]
  | cons y ys ih =>
    simp only [insertByKey]
    by_cases h : key y < key x
    · simp only [h, if_pos]
      exact (ih.cons y).trans (List.Perm.swap x y ys)
    · simp [h]

theorem sortByKey_perm {α : Type} (key : α → Nat) (l : List α) :
    List.Perm (sortByKey key l) l := by
  induction l with
  | nil => simp [sortByKey]
  | cons x xs ih =>
    exact (insertByKey_perm key x (sortByKey key xs)).trans (ih.cons x)

theorem insertByKeyDesc_perm {α : Type} (key : α → Nat) (x : α) (l : List α) :
    List.Perm (insertByKeyDesc key x l) (x :: l) := by
  induction l with
  | nil => simp [insertByKeyDesc]
  | cons y ys ih =>
    simp only [insertByKeyDesc]
    by_cases h : key x < key y
    · simp only [h, if_pos]
      exact (ih.cons y).trans (List.Perm.swap x y ys)
    · simp [h]

theorem sortByKeyDesc_perm {α : Type} (key : α → Nat) (l : List α) :
    List.Perm (sortByKeyDesc key l) l := by
  induction l with
  | nil => simp [sortByKeyDesc]
  | cons x xs ih =>
    exact (insertByKeyDesc_perm key x (sortByKeyDesc key xs)).trans (ih.cons x)

theorem insertByKey_pairwise {α : Type} (key : α → Nat) (x : α) (l : List α)
    (h : l.Pairwise (fun a b => key a ≤ key b)) :
    (insertByKey key x l).Pairwise (fun a b => key a ≤ key b) := by
  induction l with
  | nil => simp [insertByKey]
  | cons y ys ih =>
    rcases List.pairwise_cons.mp h with ⟨hy, hys⟩
    simp only [insertByKey]
    by_cases hk : key y < key x
    · simp only [hk, if_pos]
      refine List.pairwise_cons.mpr ⟨?_, ih hys⟩
      intro z hz
      rcases List.mem_cons.mp (((insertByKey_perm key x ys).mem_iff).mp hz) with hz | hz
      · exact hz ▸ Nat.le_of_lt hk
      · exact hy z hz
    · simp only [hk, if_neg, Bool.false_eq_true, not_false_iff]
      refine List.pairwise_cons.mpr ⟨?_, h⟩
      intro z hz
      rcases List.mem_cons.mp hz with hz | hz
      · exact hz ▸ Nat.le_of_not_lt hk
      · exact le_trans (Nat.le_of_not_lt hk) (hy z hz)

theorem sortByKey_pairwise {α : Type} (key : α → Nat) (l : List α) :
    (sortByKey key l).Pairwise (fun a b => key a ≤ key b) := by
  induction l with
  | nil => simp [sortByKey]
  | cons x xs ih => exact insertByKey_pairwise key x _ ih

/-! ### Helper lemmas about the merger -/

/-- Sorted ascending by start. -/
def SortedStart (l : List Segment) : Prop :=
  l.Pairwise (fun a b => a.start ≤ b.start)

/-- Every segment has a well-formed span. -/
def WfSegs (l : List Segment) : Prop := ∀ s ∈ l, s.start ≤ s.stop

theorem mergeSeg_start (c n : Segment) : (mergeSeg c n).start = c.start := by
  unfold mergeSeg
  dsimp only
  split
  · rfl
  · split <;> rfl

theorem mergeSeg_stop (c n : Segment) : (mergeSeg c n).stop = max c.stop n.stop := by
  have h : (mergeSeg c n).stop = if c.stop < n.stop then n.stop else c.stop := by
    unfold mergeSeg
    dsimp only
    split
    · rfl
    · split <;> rfl
  rw [h]
  by_cases hlt : c.stop < n.stop
  · simp [hlt, Nat.max_eq_right (Nat.le_of_lt hlt)]
  · simp [hlt, Nat.max_eq_left (Nat.le_of_not_lt hlt)]

theorem mergeLoop_start_mem (l : List Segment) (c : Segment) :
    ∀ z ∈ mergeLoop c l, z.start = c.start ∨ z.start ∈ l.map Segment.start := by
  induction l generalizing c with
  | nil =>
    intro z hz
    simp only [mergeLoop, List.mem_singleton] at hz
    exact Or.inl (hz ▸ rfl)
  | cons next rest ih =>
    intro z hz
    simp only [mergeLoop] at hz
    by_cases h : next.start ≤ c.stop + 2
    · rw [if_pos h] at hz
      rcases ih (mergeSeg c next) z hz with h1 | h1
      · exact Or.inl (h1.trans (mergeSeg_start c next))
      · exact Or.inr (by simp [h1])
    · rw [if_neg h] at hz
      rcases List.mem_cons.mp hz with hz | hz
      · exact Or.inl (by rw [hz])
      · rcases ih next z hz with h1 | h1
        · exact Or.inr (by simp [h1])
        · exact Or.inr (by simp [h1])

theorem mergeLoop_gap (l : List Segment) (c : Segment)
    (hc : ∀ z ∈ l, c.start ≤ z.start) (hs : SortedStart l) :
    (mergeLoop c l).Pairwise (fun a b => a.stop + 2 < b.start) := by
  induction l generalizing c with
  | nil => simp [mergeLoop]
  | cons next rest ih =>
    rcases List.pairwise_cons.mp hs with ⟨hnext, hrest⟩
    simp only [mergeLoop]
    by_cases h : next.start ≤ c.stop + 2
    · rw [if_pos h]
      refine ih (mergeSeg c next) ?_ hrest
      intro z hz
      rw [mergeSeg_start]
      exact hc z (List.mem_cons_of_mem next hz)
    · rw [if_neg h]
      refine List.pairwise_cons.mpr ⟨?_, ih next hnext hrest⟩
      intro z hz
      rcases mergeLoop_start_mem rest next z hz with h1 | h1
      · rw [h1]; exact Nat.lt_of_not_le h
      · rcases List.mem_map.mp h1 with ⟨w, hw, hws⟩
        calc c.stop + 2 < next.start := Nat.lt_of_not_le h
          _ ≤ w.start := hnext w hw
          _ = z.start := hws

theorem mergeOverlappingSegments_gap (l : List Segment) (hs : SortedStart l) :
    (mergeOverlappingSegments l).Pairwise (fun a b => a.stop + 2 < b.start) := by
  cases l with
  | nil => simp [mergeOverlappingSegments]
  | cons c rest =>
    rcases List.pairwise_cons.mp hs with ⟨hc, hrest⟩
    exact mergeLoop_gap rest c hc hrest

theorem mergeLoop_covered (l : List Segment) (c : Segment) (t : Nat)
    (hc : ∀ z ∈ l, c.start ≤ z.start) (hs : SortedStart l)
    (h : coveredB (c :: l) t = true) :
    coveredB (mergeLoop c l) t = true := by
  induction l generalizing c with
  | nil => simpa [mergeLoop] using h
  | cons next rest ih =>
    rcases List.pairwise_cons.mp hs with ⟨hnext, hrest⟩
    simp only [mergeLoop]
    by_cases hm : next.start ≤ c.stop + 2
    · rw [if_pos hm]
      refine ih (mergeSeg c next) ?_ hrest ?_
      · intro z hz
        rw [mergeSeg_start]
        exact hc z (List.mem_cons_of_mem next hz)
      · simp only [coveredB, List.any_cons, Bool.or_eq_true] at h ⊢
        rcases h with h | h | h
        · left
          simp only [Bool.and_eq_true, decide_eq_true_eq] at h ⊢
          rw [mergeSeg_start, mergeSeg_stop]
          exact ⟨h.1, le_trans h.2 (Nat.le_max_left _ _)⟩
        · left
          simp only [Bool.and_eq_true, decide_eq_true_eq] at h ⊢
          rw [mergeSeg_start, mergeSeg_stop]
          exact ⟨le_trans (hc next (List.mem_cons_self next rest)) h.1,
            le_trans h.2 (Nat.le_max_right _ _)⟩
        · right; exact h
    · rw [if_neg hm]
      simp only [coveredB, List.any_cons, Bool.or_eq_true] at h ⊢
      rcases h with h | h
      · left; exact h
      · right
        refine ih next hnext hrest ?_
        simp only [coveredB, List.any_cons, Bool.or_eq_true]
        exact h

theorem mergeOverlappingSegments_covered (l : List Segment) (t : Nat)
    (hs : SortedStart l) (h : coveredB l t = true) :
    coveredB (mergeOverlappingSegments l) t = true := by
  cases l with
  | nil => simp [coveredB] at h
  | cons c rest =>
    rcases List.pairwise_cons.mp hs with ⟨hc, hrest⟩
    exact mergeLoop_covered rest c t hc hrest h

theorem coveredB_perm {l l' : List Segment} (h : List.Perm l l') (t : Nat) :
    coveredB l t = coveredB l' t := by
  unfold coveredB
  rw [List.any_eq, List.any_eq]
  simp only [h.mem_iff]

theorem totalDuration_perm {l l' : List Segment} (h : List.Perm l l') :
    totalDuration l = totalDuration l' := by
  unfold totalDuration
  exact (h.map segDur).sum_eq

theorem coveredB_append (l l' : List Segment) (t : Nat) :
    coveredB (l ++ l') t = (coveredB l t || coveredB l' t) := by
  simp [coveredB]

theorem mergeSeg_wf (c n : Segment) (hc : c.start ≤ c.stop) :
    (mergeSeg c n).start ≤ (mergeSeg c n).stop := by
  rw [mergeSeg_start, mergeSeg_stop]
  exact le_trans hc (Nat.le_max_left _ _)

theorem mergeLoop_wf (l : List Segment) (c : Segment)
    (hw : WfSegs (c :: l)) : WfSegs (mergeLoop c l) := by
  induction l generalizing c with
  | nil =>
    intro s hs
    simp only [mergeLoop, List.mem_singleton] at hs
    exact hs ▸ hw c (List.mem_cons_self c [])
  | cons next rest ih =>
    simp only [mergeLoop]
    by_cases hm : next.start ≤ c.stop + 2
    · rw [if_pos hm]
      refine ih (mergeSeg c next) ?_
      intro s hs
      rcases List.mem_cons.mp hs with hs | hs
      · exact hs ▸ mergeSeg_wf c next (hw c (List.mem_cons_self c _))
      · exact hw s (List.mem_cons_of_mem c (List.mem_cons_of_mem next hs))
    · rw [if_neg hm]
      intro s hs
      rcases List.mem_cons.mp hs with hs | hs
      · exact hs ▸ hw c (List.mem_cons_self c _)
      · refine ih next ?_ s hs
        intro z hz
        exact hw z (List.mem_cons_of_mem c hz)

theorem mergeOverlappingSegments_wf (l : List Segment) (hw : WfSegs l) :
    WfSegs (mergeOverlappingSegments l) := by
  cases l with
  | nil => intro s hs; simp [mergeOverlappingSegments] at hs
  | cons c rest => exact mergeLoop_wf rest c hw

/-! ### Coverage through the guarantor folds -/

/-- Segment-list steps that can only widen coverage. -/
theorem foldl_coveredB_mono {E : Type} (step : List Segment → E → List Segment)
    (mono : ∀ s e u, coveredB s u = true → coveredB (step s e) u = true)
    (es : List E) (s : List Segment) (u : Nat) (h : coveredB s u = true) :
    coveredB (es.foldl step s) u = true := by
  induction es generalizing s with
  | nil => exact h
  | cons e es ih => exact ih (step s e) (mono s e u h)

theorem foldl_covers {E : Type} (step : List Segment → E → List Segment)
    (tm : E → Nat) (P : E → Prop)
    (mono : ∀ s e u, coveredB s u = true → coveredB (step s e) u = true)
    (self : ∀ s e, P e → coveredB (step s e) (tm e) = true)
    (es : List E) (s : List Segment) (e : E) (he : e ∈ es) (hp : P e) :
    coveredB (es.foldl step s) (tm e) = true := by
  induction es generalizing s with
  | nil => cases he
  | cons e0 es ih =>
    rcases List.mem_cons.mp he with he | he
    · subst he
      exact foldl_coveredB_mono step mono es (step s e) (tm e) (self s e hp)
    · exact ih (step s e0) he

/-- The span of a segment. -/
def span (s : Segment) : Nat × Nat := (s.start, s.stop)

theorem upgradeCovering_spans (sceneTime : Nat) (hq : Bool) (l : List Segment) :
    (upgradeCovering sceneTime hq l).map span = l.map span := by
  induction l with
  | nil => rfl
  | cons seg rest ih =>
    simp only [upgradeCovering]
    by_cases h : (decide (seg.start ≤ sceneTime) && decide (sceneTime ≤ seg.stop)) = true
    · rw [if_pos h]
      simp only [List.map_cons, List.cons.injEq]
      constructor
      · by_cases h1 : seg.source = Source.friend
        · by_cases h2 : hq <;> simp [span, h1, h2]
        · by_cases h1' : seg.source = Source.ai
          · by_cases h2 : hq <;> simp [span, h1, h1', h2]
          · by_cases h2 : hq <;> simp [span, h1, h1', h2]
      · trivial
    · rw [if_neg h]
      simp only [List.map_cons, ih]

theorem coveredB_eq_of_spans (l l' : List Segment)
    (h : l.map span = l'.map span)
    (t : Nat) : coveredB l t = coveredB l' t := by
  induction l generalizing l' with
  | nil =>
    cases l' with
    | nil => rfl
    | cons a l' => simp at h
  | cons a l ih =>
    cases l' with
    | nil => simp at h
    | cons b l' =>
      simp only [span, List.map_cons, List.cons.injEq, Prod.mk.injEq] at h
      have ht := ih l' h.2
      simp only [coveredB, List.any_cons] at ht ⊢
      rw [h.1.1, h.1.2, ht]

theorem upgradeCovering_coveredB (sceneTime : Nat) (hq : Bool) (l : List Segment)
    (u : Nat) : coveredB (upgradeCovering sceneTime hq l) u = coveredB l u :=
  coveredB_eq_of_spans _ _ (upgradeCovering_spans sceneTime hq l) u

theorem sceneryStep_mono (D b : Nat) (s : List Segment) (e : SceneryMoment) (u : Nat)
    (h : coveredB s u = true) : coveredB (sceneryStep D b s e) u = true := by
  unfold sceneryStep
  by_cases hc : coveredB s e.timestamp = true
  · rw [if_pos hc, upgradeCovering_coveredB]; exact h
  · rw [if_neg hc]
    rw [coveredB_append, h, Bool.true_or]

theorem sceneryStep_self (D b : Nat) (s : List Segment) (e : SceneryMoment)
    (hD : e.timestamp ≤ D) :
    coveredB (sceneryStep D b s e) e.timestamp = true := by
  unfold sceneryStep
  by_cases hc : coveredB s e.timestamp = true
  · rw [if_pos hc, upgradeCovering_coveredB]; exact hc
  · rw [if_neg hc, coveredB_append, Bool.or_eq_true]
    right
    simp only [coveredB, List.any_cons, List.any_nil, Bool.or_false, Bool.and_eq_true,
      decide_eq_true_eq]
    exact ⟨Nat.sub_le _ _, le_min hD (Nat.le_add_right _ _)⟩

theorem friendOccStep_mono (D b : Nat) (f : Friend) (s : List Segment) (o : Occurrence)
    (u : Nat) (h : coveredB s u = true) :
    coveredB (friendOccStep D b f s o) u = true := by
  unfold friendOccStep
  split
  · exact h
  · rw [coveredB_append, h, Bool.true_or]

theorem friendOccStep_self (D b : Nat) (f : Friend) (s : List Segment) (o : Occurrence)
    (hD : o.time ≤ D) : coveredB (friendOccStep D b f s o) o.time = true := by
  unfold friendOccStep
  by_cases hc : coveredB s o.time = true
  · rw [if_pos hc]; exact hc
  · rw [if_neg hc, coveredB_append, Bool.or_eq_true]
    right
    simp only [coveredB, mkFriendSegment, List.any_cons, List.any_nil, Bool.or_false,
      Bool.and_eq_true, decide_eq_true_eq]
    exact ⟨Nat.sub_le _ _, le_min hD (Nat.le_add_right _ _)⟩

theorem friendStep_mono (D b : Nat) (s : List Segment) (f : Friend) (u : Nat)
    (h : coveredB s u = true) : coveredB (friendStep D b s f) u = true :=
  foldl_coveredB_mono (friendOccStep D b f) (friendOccStep_mono D b f) f.timestamps s u h

theorem addFriendSegments_covers (D b : Nat) (fs : List Friend) (segs : List Segment)
    (f : Friend) (hf : f ∈ fs) (o : Occurrence) (ho : o ∈ f.timestamps)
    (hD : o.time ≤ D) : coveredB (addFriendSegments D b fs segs) o.time = true := by
  unfold addFriendSegments
  induction fs generalizing segs with
  | nil => cases hf
  | cons f0 fs' ih =>
    rcases List.mem_cons.mp hf with hf0 | hf0
    · subst hf0
      simp only [List.foldl_cons]
      refine foldl_coveredB_mono (friendStep D b) (friendStep_mono D b) fs' _ _ ?_
      exact foldl_covers (friendOccStep D b f) Occurrence.time (fun o => o.time ≤ D)
        (friendOccStep_mono D b f) (fun s e he => friendOccStep_self D b f s e he)
        f.timestamps segs o ho hD
    · simp only [List.foldl_cons]
      exact ih _ hf0

theorem foodStep_mono (D b : Nat) (s : List Segment) (e : FoodEvent) (u : Nat)
    (h : coveredB s u = true) : coveredB (foodStep D b s e) u = true := by
  unfold foodStep
  split
  · exact h
  · rw [coveredB_append, h, Bool.true_or]

theorem foodStep_self (D b : Nat) (s : List Segment) (e : FoodEvent)
    (hD : e.timestamp ≤ D) : coveredB (foodStep D b s e) e.timestamp = true := by
  unfold foodStep
  by_cases hc : coveredB s e.timestamp = true
  · rw [if_pos hc]; exact hc
  · rw [if_neg hc, coveredB_append, Bool.or_eq_true]
    right
    simp only [coveredB, mkFoodSegment, List.any_cons, List.any_nil, Bool.or_false,
      Bool.and_eq_true, decide_eq_true_eq]
    exact ⟨Nat.sub_le _ _, le_min hD (Nat.le_add_right _ _)⟩

theorem safetyStep_mono (D b : Nat) (s : List Segment) (a : SafetyAlert) (u : Nat)
    (h : coveredB s u = true) : coveredB (safetyStep D b s a) u = true := by
  unfold safetyStep
  split
  · exact h
  · rw [coveredB_append, h, Bool.true_or]

theorem safetyStep_self (D b : Nat) (s : List Segment) (a : SafetyAlert)
    (hD : a.timestamp ≤ D) : coveredB (safetyStep D b s a) a.timestamp = true := by
  unfold safetyStep
  by_cases hc : coveredB s a.timestamp = true
  · rw [if_pos hc]; exact hc
  · rw [if_neg hc, coveredB_append, Bool.or_eq_true]
    right
    simp only [coveredB, mkSafetySegment, List.any_cons, List.any_nil, Bool.or_false,
      Bool.and_eq_true, decide_eq_true_eq]
    exact ⟨Nat.sub_le _ _, le_min hD (Nat.le_add_right _ _)⟩

/-- Coverage survives the closing sort-and-merge of every guarantor pass. -/
theorem sortMerge_covered (l : List Segment) (t : Nat) (h : coveredB l t = true) :
    coveredB (mergeOverlappingSegments (sortByKey Segment.start l)) t = true := by
  refine mergeOverlappingSegments_covered _ t (sortByKey_pairwise Segment.start l) ?_
  rw [coveredB_perm (sortByKey_perm Segment.start l)]
  exact h

theorem ensureFriends_covers (fs : List Friend) (segs : List Segment) (D : Nat)
    (f : Friend) (hf : f ∈ fs) (o : Occurrence) (ho : o ∈ f.timestamps)
    (hD : o.time ≤ D) :
    coveredB (ensureFriendsInHighlights fs segs D 3) o.time = true := by
  unfold ensureFriendsInHighlights
  rw [if_neg (List.ne_nil_of_mem hf)]
  exact sortMerge_covered _ _ (addFriendSegments_covers D 3 fs segs f hf o ho hD)

theorem ensureScenery_covers (scs : List SceneryMoment) (segs : List Segment) (D : Nat)
    (sc : SceneryMoment) (hsc : sc ∈ scs) (hstay : 3 ≤ sc.stayDuration)
    (hD : sc.timestamp ≤ D) :
    coveredB (ensureSceneryInHighlights scs segs D 2) sc.timestamp = true := by
  unfold ensureSceneryInHighlights
  rw [if_neg (List.ne_nil_of_mem hsc)]
  refine sortMerge_covered _ _ ?_
  refine foldl_covers (sceneryStep D 2) SceneryMoment.timestamp
    (fun sc => sc.timestamp ≤ D) (sceneryStep_mono D 2)
    (fun s e he => sceneryStep_self D 2 s e he) _ segs sc ?_ hD
  exact List.mem_filter.mpr ⟨hsc, by simpa using hstay⟩

theorem ensureFood_covers (es : List FoodEvent) (segs : List Segment) (D : Nat)
    (e : FoodEvent) (he : e ∈ es) (hD : e.timestamp ≤ D) :
    coveredB (ensureFoodInHighlights es segs D 1) e.timestamp = true := by
  unfold ensureFoodInHighlights
  rw [if_neg (List.ne_nil_of_mem he)]
  exact sortMerge_covered _ _
    (foldl_covers (foodStep D 1) FoodEvent.timestamp (fun e => e.timestamp ≤ D)
      (foodStep_mono D 1) (fun s e h => foodStep_self D 1 s e h) es segs e he hD)

theorem ensureSafety_covers (als : List SafetyAlert) (segs : List Segment) (D : Nat)
    (a : SafetyAlert) (ha : a ∈ als) (hD : a.timestamp ≤ D) :
    coveredB (ensureSafetyAlertsInHighlights als segs D 1) a.timestamp = true := by
  unfold ensureSafetyAlertsInHighlights
  rw [if_neg (List.ne_nil_of_mem ha)]
  exact sortMerge_covered _ _
    (foldl_covers (safetyStep D 1) SafetyAlert.timestamp (fun a => a.timestamp ≤ D)
      (safetyStep_mono D 1) (fun s a h => safetyStep_self D 1 s a h) als segs a ha hD)

/-! ### Shape of the synthesized segments -/

theorem addFriendSegments_shape (D b : Nat) (fs : List Friend) (segs : List Segment) :
    ∀ seg ∈ addFriendSegments D b fs segs,
      seg ∈ segs ∨ ∃ f ∈ fs, ∃ o ∈ f.timestamps, seg = mkFriendSegment D b f o := by
  unfold addFriendSegments
  induction fs generalizing segs with
  | nil => intro seg hseg; exact Or.inl hseg
  | cons f0 fs' ih =>
    intro seg hseg
    simp only [List.foldl_cons] at hseg
    rcases ih (friendStep D b segs f0) seg hseg with h | ⟨f, hf, o, ho, he⟩
    · have inner : ∀ (os : List Occurrence) (acc : List Segment) (seg : Segment),
          seg ∈ os.foldl (friendOccStep D b f0) acc →
          seg ∈ acc ∨ ∃ o ∈ os, seg = mkFriendSegment D b f0 o := by
        intro os
        induction os with
        | nil => intro acc seg h; exact Or.inl h
        | cons o0 os' ih2 =>
          intro acc seg h
          simp only [List.foldl_cons] at h
          rcases ih2 (friendOccStep D b f0 acc o0) seg h with h1 | ⟨o, ho, he⟩
          · unfold friendOccStep at h1
            split at h1
            · exact Or.inl h1
            · rcases List.mem_append.mp h1 with h2 | h2
              · exact Or.inl h2
              · exact Or.inr ⟨o0, List.mem_cons_self o0 os',
                  (List.mem_singleton.mp h2)⟩
          · exact Or.inr ⟨o, List.mem_cons_of_mem o0 ho, he⟩
      rcases inner f0.timestamps segs seg h with h1 | ⟨o, ho, he⟩
      · exact Or.inl h1
      · exact Or.inr ⟨f0, List.mem_cons_self f0 fs', o, ho, he⟩
    · exact Or.inr ⟨f, List.mem_cons_of_mem f0 hf, o, ho, he⟩

theorem safetyFold_shape (D b : Nat) (als : List SafetyAlert) (segs : List Segment) :
    ∀ seg ∈ als.foldl (safetyStep D b) segs,
      seg ∈ segs ∨ ∃ a ∈ als, seg = mkSafetySegment D b a := by
  induction als generalizing segs with
  | nil => intro seg hseg; exact Or.inl hseg
  | cons a0 als' ih =>
    intro seg hseg
    simp only [List.foldl_cons] at hseg
    rcases ih (safetyStep D b segs a0) seg hseg with h | ⟨a, ha, he⟩
    · unfold safetyStep at h
      split at h
      · exact Or.inl h
      · rcases List.mem_append.mp h with h2 | h2
        · exact Or.inl h2
        · exact Or.inr ⟨a0, List.mem_cons_self a0 als', List.mem_singleton.mp h2⟩
    · exact Or.inr ⟨a, List.mem_cons_of_mem a0 ha, he⟩

theorem sceneryFold_shape (D b : Nat) (scs : List SceneryMoment) (segs : List Segment) :
    ∀ seg ∈ scs.foldl (sceneryStep D b) segs,
      span seg ∈ segs.map span ∨
      ∃ sc ∈ scs, seg.start = sc.timestamp - b ∧
        seg.stop = min D (sc.timestamp + min (jsOr sc.stayDuration 5) 5) := by
  induction scs generalizing segs with
  | nil => intro seg hseg; exact Or.inl (List.mem_map_of_mem span hseg)
  | cons sc0 scs' ih =>
    intro seg hseg
    simp only [List.foldl_cons] at hseg
    rcases ih (sceneryStep D b segs sc0) seg hseg with h | ⟨sc, hsc, he⟩
    · simp only [sceneryStep] at h
      split at h
      · rw [upgradeCovering_spans] at h
        exact Or.inl h
      · rw [List.map_append, List.map_cons, List.map_nil] at h
        rcases List.mem_append.mp h with h2 | h2
        · exact Or.inl h2
        · have h3 := List.mem_singleton.mp h2
          have h4 : seg.start = sc0.timestamp - b ∧
              seg.stop = min D (sc0.timestamp + min (jsOr sc0.stayDuration 5) 5) := by
            have := congrArg Prod.fst h3
            have h5 := congrArg Prod.snd h3
            exact ⟨this, h5⟩
          exact Or.inr ⟨sc0, List.mem_cons_self sc0 scs', h4.1, h4.2⟩
    · exact Or.inr ⟨sc, List.mem_cons_of_mem sc0 hsc, he⟩

/-! ### Stage-2 budget invariants -/

theorem totalDuration_append (l l' : List Segment) :
    totalDuration (l ++ l') = totalDuration l + totalDuration l' := by
  simp [totalDuration]

theorem stage2Step_inv (st : Stage2State) (c : Segment)
    (h1 : totalDuration st.kept = st.current) (h2 : st.current ≤ 125) :
    totalDuration (stage2Step st c).kept = (stage2Step st c).current ∧
      (stage2Step st c).current ≤ 125 := by
  unfold stage2Step
  dsimp only
  set isOnly := decide (c.source = Source.friend) &&
    (match c.friendName with
     | some n => !(st.friendsIncluded.contains n)
     | none => false) with hiso
  set cd := (if 120 < st.current + segDur c then
      let remaining : Int := 120 - st.current
      if c.source = Source.safety ∧ 3 ≤ remaining then
        ({ c with stop := c.start + (max 3 remaining).toNat }, remaining)
      else if isOnly = true ∧ 3 ≤ remaining then
        ({ c with stop := c.start + (max 3 remaining).toNat }, remaining)
      else (c, segDur c)
    else (c, segDur c)) with hcd
  have hdur : segDur cd.1 = cd.2 := by
    rw [hcd]
    split
    · dsimp only
      split
      · rename_i hcond
        simp only [segDur]
        have h3 : (3 : Int) ≤ 120 - st.current := hcond.2
        have hmax : max 3 (120 - st.current) = 120 - st.current := max_eq_right h3
        rw [hmax]
        have hnn : (0 : Int) ≤ 120 - st.current := le_trans (by omega) h3
        push_cast [Int.toNat_of_nonneg hnn]
        omega
      · split
        · rename_i hcond
          simp only [segDur]
          have h3 : (3 : Int) ≤ 120 - st.current := hcond.2
          have hmax : max 3 (120 - st.current) = 120 - st.current := max_eq_right h3
          rw [hmax]
          have hnn : (0 : Int) ≤ 120 - st.current := le_trans (by omega) h3
          push_cast [Int.toNat_of_nonneg hnn]
          omega
        · rfl
    · rfl
  split
  · rename_i hacc
    constructor
    · dsimp only
      rw [totalDuration_append, h1]
      simp only [totalDuration, List.map_cons, List.map_nil, List.sum_cons, List.sum_nil,
        add_zero, hdur]
    · dsimp only
      rcases hacc with hacc | hacc
      · omega
      · exact hacc.2
  · exact ⟨h1, h2⟩

theorem stage2Fold_inv (l : List Segment) (st : Stage2State)
    (h1 : totalDuration st.kept = st.current) (h2 : st.current ≤ 125) :
    totalDuration (l.foldl stage2Step st).kept = (l.foldl stage2Step st).current ∧
      (l.foldl stage2Step st).current ≤ 125 := by
  induction l generalizing st with
  | nil => exact ⟨h1, h2⟩
  | cons c l ih =>
    simp only [List.foldl_cons]
    rcases stage2Step_inv st c h1 h2 with ⟨g1, g2⟩
    exact ih _ g1 g2

theorem stage2Trim_total (hl : List Segment) : totalDuration (stage2Trim hl) ≤ 125 := by
  unfold stage2Trim
  dsimp only
  rw [totalDuration_perm (sortByKey_perm Segment.start _)]
  rcases stage2Fold_inv (sortByKeyDesc getPriority hl) ⟨[], 0, []⟩ (by simp [totalDuration])
    (by decide) with ⟨g1, g2⟩
  rw [g1]
  exact g2

theorem budgetStage_total (hl : List Segment) : totalDuration (budgetStage hl) ≤ 125 := by
  unfold budgetStage
  split
  · exact stage2Trim_total hl
  · rename_i hle
    omega

theorem sceneryFallback_total (scs : List SceneryMoment) (D : Nat) (hl : List Segment)
    (hin : totalDuration hl ≤ 125) :
    totalDuration (sceneryFallback scs D hl) ≤ 125 := by
  simp only [sceneryFallback]
  split
  · exact hin
  · split
    · exact hin
    · split
      · exact hin
      · split
        · exact hin
        · rename_i bestScene heq
          split
          · rename_i hfits
            rw [totalDuration_perm (sortByKey_perm Segment.start _), totalDuration_append]
            simpa [totalDuration, segDur] using hfits
          · exact hin

/-- C1: for every input annotation set, the total duration of the final
HighlightCut (the sum of `end - start` over the final segments after the
complete pipeline of Stage-1 trim, stayDuration cap, the four Coverage
Guarantors, the final Budget Trim and the scenery zero-coverage fallback)
is at most 125 seconds. -/
theorem total_duration_le_125 (ai : List Segment) (fs : List Friend)
    (scs : List SceneryMoment) (es : List FoodEvent) (als : List SafetyAlert)
    (D : Nat) : totalDuration (processHighlights ai fs scs es als D) ≤ 125 := by
  unfold processHighlights
  exact sceneryFallback_total _ _ _ (by
    unfold processHighlightsCore
    exact budgetStage_total _)

/-- C5: after each event class's Coverage Guarantor pass, every qualifying
event timestamp of that class (every recurring-subject occurrence, every
scenery moment with dwell at least 3 seconds, every safety alert, each with
timestamp within the video) is contained in some segment's span; and the
segments synthesized by each pass use the class-specific pre-roll and clip
length: recurring-subject 3s pre-roll with end `time + max(duration, 3)`,
per individual occurrence; scenery 2s pre-roll with clip `min(dwell, 5)`;
safety 1s pre-roll with 4s for danger and 3s for warning. -/
theorem coverage_after_pass (D : Nat) (segs : List Segment) (fs : List Friend)
    (scs : List SceneryMoment) (als : List SafetyAlert) :
    (∀ f ∈ fs, ∀ o ∈ f.timestamps, o.time ≤ D →
        coveredB (ensureFriendsInHighlights fs segs D 3) o.time = true) ∧
    (∀ sc ∈ scs, 3 ≤ sc.stayDuration → sc.timestamp ≤ D →
        coveredB (ensureSceneryInHighlights scs segs D 2) sc.timestamp = true) ∧
    (∀ a ∈ als, a.timestamp ≤ D →
        coveredB (ensureSafetyAlertsInHighlights als segs D 1) a.timestamp = true) ∧
    (∀ seg ∈ addFriendSegments D 3 fs segs, seg ∈ segs ∨
        ∃ f ∈ fs, ∃ o ∈ f.timestamps,
          seg.start = o.time - 3 ∧
          seg.stop = min D (o.time + max (jsOr o.duration (jsOr f.duration 5)) 3) ∧
          seg.source = Source.friend) ∧
    (∀ seg ∈ (scs.filter (fun s => decide (3 ≤ s.stayDuration))).foldl
        (sceneryStep D 2) segs,
        span seg ∈ segs.map span ∨
        ∃ sc ∈ scs, 3 ≤ sc.stayDuration ∧ seg.start = sc.timestamp - 2 ∧
          seg.stop = min D (sc.timestamp + min sc.stayDuration 5)) ∧
    (∀ seg ∈ als.foldl (safetyStep D 1) segs, seg ∈ segs ∨
        ∃ a ∈ als, seg.start = a.timestamp - 1 ∧
          seg.stop = min D (a.timestamp +
            match a.type with | .danger => 4 | .warning => 3) ∧
          seg.source = Source.safety) := by
  refine ⟨?_, ?_, ?_, ?_, ?_, ?_⟩
  · intro f hf o ho hD
    exact ensureFriends_covers fs segs D f hf o ho hD
  · intro sc hsc hstay hD
    exact ensureScenery_covers scs segs D sc hsc hstay hD
  · intro a ha hD
    exact ensureSafety_covers als segs D a ha hD
  · intro seg hseg
    rcases addFriendSegments_shape D 3 fs segs seg hseg with h | ⟨f, hf, o, ho, he⟩
    · exact Or.inl h
    · exact Or.inr ⟨f, hf, o, ho, by rw [he]; exact ⟨rfl, rfl, rfl⟩⟩
  · intro seg hseg
    rcases sceneryFold_shape D 2 _ segs seg hseg with h | ⟨sc, hsc, h1, h2⟩
    · exact Or.inl h
    · have hmem := List.mem_filter.mp hsc
      have hstay : 3 ≤ sc.stayDuration := by
        have := hmem.2
        simpa using this
      refine Or.inr ⟨sc, hmem.1, hstay, h1, ?_⟩
      rw [h2]
      have : jsOr sc.stayDuration 5 = sc.stayDuration := by
        unfold jsOr
        rw [if_neg (by omega)]
      rw [this]
  · intro seg hseg
    rcases safetyFold_shape D 1 als segs seg hseg with h | ⟨a, ha, he⟩
    · exact Or.inl h
    · subst he
      refine Or.inr ⟨a, ha, rfl, ?_, rfl⟩
      unfold mkSafetySegment
      cases a.type <;> rfl

/-- Witness for C5 at a concrete input: one friend occurrence at 60s (4s),
one scenery moment at 30s (dwell 4s), one danger alert at 10s, duration 90s,
no pre-existing segments. -/
theorem coverage_after_pass_witness :
    coveredB (ensureFriendsInHighlights
      [{ name := "Buddy", timestamps := [{ time := 60, duration := 4 }] }] [] 90 3)
      60 = true ∧
    coveredB (ensureSceneryInHighlights [{ timestamp := 30, stayDuration := 4 }] [] 90 2)
      30 = true ∧
    coveredB (ensureSafetyAlertsInHighlights [{ timestamp := 10, type := .danger }] [] 90 1)
      10 = true := by
  refine ⟨?_, ?_, ?_⟩
  · exact (coverage_after_pass 90 []
      [{ name := "Buddy", timestamps := [{ time := 60, duration := 4 }] }] [] []).1
      _ (List.mem_singleton.mpr rfl) _ (List.mem_singleton.mpr rfl) (by decide)
  · exact (coverage_after_pass 90 [] [] [{ timestamp := 30, stayDuration := 4 }] []).2.1
      _ (List.mem_singleton.mpr rfl) (by decide) (by decide)
  · exact (coverage_after_pass 90 [] [] [] [{ timestamp := 10, type := .danger }]).2.2.1
      _ (List.mem_singleton.mpr rfl) (by decide)

/-- C6: for the input with one ai-scored candidate spanning 0:00-0:10, one
recurring-subject occurrence at 1:00 lasting 4 seconds and source duration
90 seconds, the pipeline inserts the segment 0:57-1:04, the cut totals 17
seconds, and mapping original time 62 returns highlight time 15. -/
theorem scenario_one_eval :
    (processHighlights [{ start := 0, stop := 10 }]
        [{ name := "Buddy", timestamps := [{ time := 60, duration := 4 }] }]
        [] [] [] 90).map span = [(0, 10), (57, 64)] ∧
    totalDuration (processHighlights [{ start := 0, stop := 10 }]
        [{ name := "Buddy", timestamps := [{ time := 60, duration := 4 }] }]
        [] [] [] 90) = 17 ∧
    mapToHighlightTime 62 (processHighlights [{ start := 0, stop := 10 }]
        [{ name := "Buddy", timestamps := [{ time := 60, duration := 4 }] }]
        [] [] [] 90) = some 15 := by
  refine ⟨?_, ?_, ?_⟩ <;> rfl

/-- C2 (evidence of the code bug): with an unrelated 116s candidate, a
danger alert at 1:57 (merged into a 121s safety segment, compressed to
[0,120]) and a second danger alert at 5:00, the final Budget Trim *drops*
the second safety segment outright, because the remaining budget (0s) is
below the 3s floor; the alert at 300s ends up uncovered even though keeping
it compressed to the 3s floor would have totalled 123s, within the 125s
ceiling.  This contradicts the trimmer's own comment
"Safety: never delete, but can shorten to 3s minimum". -/
theorem safety_drop_failing_input :
    processHighlights [{ start := 0, stop := 116 }] [] [] []
        [{ timestamp := 117, type := .danger }, { timestamp := 300, type := .danger }]
        400 =
      [{ start := 0, stop := 120, source := .safety }] ∧
    coveredB (processHighlights [{ start := 0, stop := 116 }] [] [] []
        [{ timestamp := 117, type := .danger }, { timestamp := 300, type := .danger }]
        400) 300 = false ∧
    totalDuration (processHighlights [{ start := 0, stop := 116 }] [] [] []
        [{ timestamp := 117, type := .danger }, { timestamp := 300, type := .danger }]
        400) + 3 ≤ 125 := by
  refine ⟨rfl, rfl, by decide⟩

/-- C4 counterexample: merging a safety segment with a friend segment that
carries a subject name loses the name — the merged segment keeps the
higher-ranked safety tag but its `friendName` stays `none` although the
incoming side had one, falsifying "the subject name is propagated if either
side has one". -/
theorem merge_name_loss_cex :
    mergeOverlappingSegments
        [{ start := 0, stop := 10, source := .safety },
         { start := 5, stop := 12, source := .friend, friendName := some "Rex" }] =
      [{ start := 0, stop := 12, source := .safety }] ∧
    ({ start := 5, stop := 12, source := .friend, friendName := some "Rex" } :
        Segment).friendName = some "Rex" := by
  exact ⟨rfl, rfl⟩

/-- C4 amended: when the merger merges two intervals (the next one's start
within 2 seconds of the previous one's end), the merged segment's end is the
later of the two ends, the tag becomes the combined tag when the two sources
span both a recurring-subject and a scenery tag and otherwise the
higher-ranked source under safety(100) > combined(95) > recurring-subject(80)
> feeding(60) > scenery(40) > ai-scored(10) is kept, the high-quality flags
are OR-combined and the score is the maximum of the two; the subject name,
however, is taken from both sides only in the combined-tag case or when the
incoming interval has strictly higher rank — otherwise the previous
interval's (possibly absent) name is kept. -/
theorem merge_characterization (a b : Segment) (h : b.start ≤ a.stop + 2) :
    mergeOverlappingSegments [a, b] = [{
      start := a.start
      stop := max a.stop b.stop
      source := if (isFriendSource a.source || isFriendSource b.source) &&
            (isScenerySource a.source || isScenerySource b.source) then Source.combo
          else if getSourcePriority a.source < getSourcePriority b.source then b.source
          else a.source
      score := max a.score b.score
      friendName := if (isFriendSource a.source || isFriendSource b.source) &&
            (isScenerySource a.source || isScenerySource b.source) then
            jsOrOpt a.friendName b.friendName
          else if getSourcePriority a.source < getSourcePriority b.source then
            jsOrOpt b.friendName a.friendName
          else a.friendName
      isHighQuality := a.isHighQuality || b.isHighQuality
      isNearFriend := a.isNearFriend }] := by
  have hstop : (if a.stop < b.stop then b.stop else a.stop) = max a.stop b.stop := by
    rcases Nat.lt_or_ge a.stop b.stop with hl | hl
    · rw [if_pos hl, Nat.max_eq_right (Nat.le_of_lt hl)]
    · rw [if_neg (Nat.not_lt.mpr hl), Nat.max_eq_left hl]
  simp only [mergeOverlappingSegments, mergeLoop, if_pos h]
  unfold mergeSeg
  dsimp only
  rw [hstop]
  by_cases h1 : ((isFriendSource a.source || isFriendSource b.source) &&
      (isScenerySource a.source || isScenerySource b.source)) = true
  · simp [h1]
  · by_cases h2 : getSourcePriority a.source < getSourcePriority b.source
    · simp [h1, h2]
    · simp [h1, h2]

/-- Witness for C4's amended statement: the counterexample pair evaluated
through the characterization. -/
theorem merge_characterization_witness :
    mergeOverlappingSegments
        [{ start := 0, stop := 10, source := .safety },
         { start := 5, stop := 12, source := .friend, friendName := some "Rex" }] =
      [{ start := 0, stop := 12, source := .safety }] := by
  rw [merge_characterization
    { start := 0, stop := 10, source := .safety }
    { start := 5, stop := 12, source := .friend, friendName := some "Rex" }
    (by decide)]
  rfl

/-- C3 counterexample: a 117s scenery-upgraded candidate is dropped by the
final Budget Trim in favour of a later feeding clip; the zero-coverage
fallback then re-inserts a scenery segment [115,121] that overlaps the kept
clip [120,124] — it is inserted without a re-merge — so the final
HighlightCut is not pairwise non-overlapping. -/
theorem fallback_overlap_cex :
    (processHighlights [{ start := 0, stop := 117, score := 20 }] []
        [{ timestamp := 117, stayDuration := 4 }] [{ timestamp := 121 }] [] 500).map
      span = [(115, 121), (120, 124)] ∧
    ¬ (processHighlights [{ start := 0, stop := 117, score := 20 }] []
        [{ timestamp := 117, stayDuration := 4 }] [{ timestamp := 121 }] [] 500).Pairwise
      (fun a b => a.stop ≤ b.start) := by
  refine ⟨rfl, by decide⟩

/-! ### The timeline mapper -/

theorem mapGo_ge_offset (t : Nat) (l : List Segment) :
    ∀ off x, mapGo t off l = some x → off ≤ x := by
  induction l with
  | nil => intro off x h; simp [mapGo] at h
  | cons seg rest ih =>
    intro off x h
    simp only [mapGo] at h
    split at h
    · cases h
      exact Nat.le_add_right _ _
    · exact le_trans (Nat.le_add_right _ _) (ih _ x h)

theorem mapGo_none_of_lt (t : Nat) (l : List Segment)
    (h : ∀ s ∈ l, t < s.start) : ∀ off, mapGo t off l = none := by
  induction l with
  | nil => intro off; rfl
  | cons seg rest ih =>
    intro off
    simp only [mapGo]
    have hseg := h seg (List.mem_cons_self seg rest)
    rw [if_neg]
    · exact ih (fun s hs => h s (List.mem_cons_of_mem seg hs)) _
    · simp only [Bool.and_eq_true, decide_eq_true_eq, not_and]
      intro hle
      omega

theorem mapGo_mono (l : List Segment) (hwf : ∀ s ∈ l, s.start ≤ s.stop)
    (hsort : l.Pairwise (fun a b => a.stop ≤ b.start)) (A B : Nat) (hAB : A < B) :
    ∀ off x y, mapGo A off l = some x → mapGo B off l = some y → x ≤ y := by
  induction l with
  | nil => intro off x y hA hB; simp [mapGo] at hA
  | cons seg rest ih =>
    rcases List.pairwise_cons.mp hsort with ⟨hseg, hrest⟩
    have hwseg := hwf seg (List.mem_cons_self seg rest)
    have hwrest : ∀ s ∈ rest, s.start ≤ s.stop :=
      fun s hs => hwf s (List.mem_cons_of_mem seg hs)
    intro off x y hA hB
    simp only [mapGo] at hA hB
    by_cases hAin : (decide (seg.start ≤ A) && decide (A ≤ seg.stop)) = true
    · rw [if_pos hAin] at hA
      simp only [Bool.and_eq_true, decide_eq_true_eq] at hAin
      cases hA
      by_cases hBin : (decide (seg.start ≤ B) && decide (B ≤ seg.stop)) = true
      · rw [if_pos hBin] at hB
        cases hB
        exact Nat.add_le_add_left (Nat.sub_le_sub_right (Nat.le_of_lt hAB) _) _
      · rw [if_neg hBin] at hB
        have hy := mapGo_ge_offset B rest _ y hB
        calc off + (A - seg.start) ≤ off + (seg.stop - seg.start) :=
              Nat.add_le_add_left (Nat.sub_le_sub_right hAin.2 _) _
          _ ≤ y := hy
    · rw [if_neg hAin] at hA
      by_cases hBin : (decide (seg.start ≤ B) && decide (B ≤ seg.stop)) = true
      · exfalso
        simp only [Bool.and_eq_true, decide_eq_true_eq] at hAin hBin
        have hAlt : A < seg.start := by
          rcases Nat.lt_or_ge A seg.start with h1 | h1
          · exact h1
          · exfalso
            exact hAin ⟨h1, le_trans (Nat.le_of_lt hAB) hBin.2⟩
        have : mapGo A (off + (seg.stop - seg.start)) rest = none := by
          refine mapGo_none_of_lt A rest ?_ _
          intro s hs
          calc A < seg.start := hAlt
            _ ≤ seg.stop := hwseg
            _ ≤ s.start := hseg s hs
        rw [this] at hA
        cases hA
      · rw [if_neg hBin] at hB
        exact ih hwrest hrest _ x y hA hB

/-- C7: for every well-formed, sorted, pairwise-disjoint segment list and all
original times A < B, if `mapToHighlightTime` maps both A and B successfully
then the mapped time of A is at most the mapped time of B. -/
theorem map_monotone (hl : List Segment) (hwf : ∀ s ∈ hl, s.start ≤ s.stop)
    (hsort : hl.Pairwise (fun a b => a.stop ≤ b.start)) (A B x y : Nat)
    (hAB : A < B) (hA : mapToHighlightTime A hl = some x)
    (hB : mapToHighlightTime B hl = some y) : x ≤ y :=
  mapGo_mono hl hwf hsort A B hAB 0 x y hA hB

/-- Witness for C7 on the two-segment cut of the C6 scenario. -/
theorem map_monotone_witness :
    mapToHighlightTime 5 [{ start := 0, stop := 10 }, { start := 57, stop := 64 }] =
      some 5 ∧
    mapToHighlightTime 62 [{ start := 0, stop := 10 }, { start := 57, stop := 64 }] =
      some 15 ∧
    (5 : Nat) ≤ 15 :=
  ⟨rfl, rfl,
    map_monotone [{ start := 0, stop := 10 }, { start := 57, stop := 64 }]
      (by decide) (by decide) 5 62 5 15 (by decide) rfl rfl⟩

/-! ### Idempotence of the annotation rewrite -/

/-- C8: the annotation timestamp rewrite is idempotent — applying
`mapAndFilterForHighlight` to its own output returns the same list, hence
any number of repeated applications equals a single one — and every
surviving item's original-time sibling field holds the timestamp value the
source item carried on input (its original field if already present,
otherwise its time field), with the mapped marker set. -/
theorem map_filter_idempotent (hl : List Segment) (xs : List MappedItem) :
    mapAndFilterForHighlight (mapAndFilterForHighlight xs hl) hl =
      mapAndFilterForHighlight xs hl ∧
    (∀ n : Nat, (fun ys => mapAndFilterForHighlight ys hl)^[n]
        (mapAndFilterForHighlight xs hl) = mapAndFilterForHighlight xs hl) ∧
    (∀ it ∈ mapAndFilterForHighlight xs hl, ∃ it0 ∈ xs,
        it.original = some (it0.original.getD it0.time) ∧ it.isMapped = true) := by
  have hidem : mapAndFilterForHighlight (mapAndFilterForHighlight xs hl) hl =
      mapAndFilterForHighlight xs hl := by
    unfold mapAndFilterForHighlight
    by_cases h0 : hl = []
    · simp [h0]
    · rw [if_neg h0, if_neg h0, List.filterMap_filterMap]
      refine List.filterMap_congr ?_
      intro it _
      dsimp only
      rcases hmap : mapToHighlightTime (it.original.getD it.time) hl with _ | m
      · rfl
      · simp only [Option.some_bind, Option.getD_some]
        rw [hmap]
  refine ⟨hidem, ?_, ?_⟩
  · intro n
    induction n with
    | zero => rfl
    | succ n ihn =>
      rw [Function.iterate_succ_apply, hidem, ihn]
  · intro it hit
    unfold mapAndFilterForHighlight at hit
    by_cases h0 : hl = []
    · rw [if_pos h0] at hit
      cases hit
    · rw [if_neg h0] at hit
      rcases List.mem_filterMap.mp hit with ⟨it0, hmem, hsome⟩
      dsimp only at hsome
      refine ⟨it0, hmem, ?_⟩
      rcases hmap : mapToHighlightTime (it0.original.getD it0.time) hl with _ | m
      · rw [hmap] at hsome
        cases hsome
      · rw [hmap] at hsome
        cases hsome
        exact ⟨rfl, rfl⟩

/-- Witness for C8 on a concrete cut and item list. -/
theorem map_filter_idempotent_witness :
    mapAndFilterForHighlight
        (mapAndFilterForHighlight [{ time := 5 }] [{ start := 0, stop := 10 }])
        [{ start := 0, stop := 10 }] =
      mapAndFilterForHighlight [{ time := 5 }] [{ start := 0, stop := 10 }] ∧
    (∃ it0 ∈ ([{ time := 5 }] : List MappedItem),
      (({ time := 5, original := some 5, isMapped := true } : MappedItem)).original =
        some (it0.original.getD it0.time) ∧
      (({ time := 5, original := some 5, isMapped := true } : MappedItem)).isMapped =
        true) :=
  ⟨(map_filter_idempotent [{ start := 0, stop := 10 }] [{ time := 5 }]).1,
   (map_filter_idempotent [{ start := 0, stop := 10 }] [{ time := 5 }]).2.2
     { time := 5, original := some 5, isMapped := true } (by decide)⟩

/-! ### Mood normalizer lemmas -/

theorem cleanMood_sec_le (md : List MoodRaw) (D : Nat) :
    ∀ p ∈ cleanMood md D, p.sec ≤ D := by
  intro p hp
  rcases List.mem_filterMap.mp hp with ⟨r, _, hr⟩
  rcases hs : r.sec with _ | s
  · rw [hs] at hr
    cases hr
  · rcases hv : r.value with _ | v
    · rw [hs, hv] at hr
      cases hr
    · rw [hs, hv] at hr
      cases hr
      show (clampI (jsRound s) 0 (D : Int)).toNat ≤ D
      rw [Int.toNat_le]
      exact min_le_left _ _

theorem dedupLast_subset (l : List MoodPoint) : ∀ p ∈ dedupLast l, p ∈ l := by
  induction l with
  | nil => intro p hp; cases hp
  | cons a t ih =>
    cases t with
    | nil => intro p hp; exact hp
    | cons b rest =>
      intro p hp
      simp only [dedupLast] at hp
      split at hp
      · exact List.mem_cons_of_mem a (ih p hp)
      · rcases List.mem_cons.mp hp with hp | hp
        · exact hp ▸ List.mem_cons_self a _
        · exact List.mem_cons_of_mem a (ih p hp)

theorem dedupLast_pairwise_lt (l : List MoodPoint)
    (h : l.Pairwise (fun p q => p.sec ≤ q.sec)) :
    (dedupLast l).Pairwise (fun p q => p.sec < q.sec) := by
  induction l with
  | nil => simp [dedupLast]
  | cons a t ih =>
    cases t with
    | nil => simp [dedupLast]
    | cons b rest =>
      rcases List.pairwise_cons.mp h with ⟨ha, hbt⟩
      simp only [dedupLast]
      split
      · exact ih hbt
      · rename_i hne
        refine List.pairwise_cons.mpr ⟨?_, ih hbt⟩
        intro z hz
        have hzmem := dedupLast_subset _ z hz
        have hab : a.sec < b.sec :=
          Nat.lt_of_le_of_ne (ha b (List.mem_cons_self b rest)) hne
        rcases List.mem_cons.mp hzmem with hzb | hzr
        · exact hzb ▸ hab
        · exact Nat.lt_of_lt_of_le hab
            ((List.pairwise_cons.mp hbt).1 z hzr)

theorem fixLast_mem (D : Nat) (l : List MoodPoint) :
    ∀ z ∈ fixLast D l, z ∈ l ∨ z.sec = D := by
  induction l with
  | nil => intro z hz; cases hz
  | cons p t ih =>
    cases t with
    | nil =>
      intro z hz
      simp only [fixLast] at hz
      split at hz
      · rcases List.mem_cons.mp hz with hz | hz
        · exact Or.inl (hz ▸ List.mem_cons_self p _)
        · exact Or.inr ((List.mem_singleton.mp hz) ▸ rfl)
      · exact Or.inr ((List.mem_singleton.mp hz) ▸ rfl)
    | cons q rest =>
      intro z hz
      simp only [fixLast] at hz
      rcases List.mem_cons.mp hz with hz | hz
      · exact Or.inl (hz ▸ List.mem_cons_self p _)
      · rcases ih z hz with h1 | h1
        · exact Or.inl (List.mem_cons_of_mem p h1)
        · exact Or.inr h1

theorem fixLast_pairwise (D : Nat) (l : List MoodPoint)
    (hle : ∀ p ∈ l, p.sec ≤ D)
    (h : l.Pairwise (fun p q => p.sec < q.sec)) :
    (fixLast D l).Pairwise (fun p q => p.sec < q.sec) := by
  induction l with
  | nil => simp [fixLast]
  | cons p t ih =>
    cases t with
    | nil =>
      simp only [fixLast]
      split
      · rename_i hlt
        exact List.pairwise_cons.mpr ⟨fun z hz => (List.mem_singleton.mp hz) ▸ hlt,
          List.pairwise_singleton _ _⟩
      · exact List.pairwise_singleton _ _
    | cons q rest =>
      rcases List.pairwise_cons.mp h with ⟨hp, hqt⟩
      simp only [fixLast]
      refine List.pairwise_cons.mpr ⟨?_, ih (fun z hz => hle z (List.mem_cons_of_mem p hz)) hqt⟩
      intro z hz
      rcases fixLast_mem D (q :: rest) z hz with h1 | h1
      · exact hp z h1
      · rw [h1]
        have hq : p.sec < q.sec := hp q (List.mem_cons_self q rest)
        have hqD : q.sec ≤ D := hle q (List.mem_cons_of_mem p (List.mem_cons_self q rest))
        omega

theorem fixLast_ne_nil (D : Nat) (l : List MoodPoint) (hne : l ≠ []) :
    fixLast D l ≠ [] := by
  cases l with
  | nil => cases hne rfl
  | cons p t =>
    cases t with
    | nil =>
      simp only [fixLast]
      split <;> simp
    | cons q rest => simp [fixLast]

theorem fixLast_getLast (D : Nat) (l : List MoodPoint) (hne : l ≠ []) :
    (fixLast D l).getLast?.map MoodPoint.sec = some D := by
  induction l with
  | nil => cases hne rfl
  | cons p t ih =>
    cases t with
    | nil =>
      simp only [fixLast]
      split <;> simp
    | cons q rest =>
      simp only [fixLast]
      obtain ⟨x, xs, hx⟩ := List.exists_cons_of_ne_nil
        (fixLast_ne_nil D (q :: rest) (List.cons_ne_nil q rest))
      rw [hx, List.getLast?_cons_cons, ← hx]
      exact ih (List.cons_ne_nil q rest)

theorem fixLast_head (D : Nat) (p : MoodPoint) (rest : List MoodPoint)
    (hlt : p.sec < D) : (fixLast D (p :: rest)).head? = some p := by
  cases rest with
  | nil => simp [fixLast, hlt]
  | cons q t => simp [fixLast]

theorem fixFirst_pairwise (l : List MoodPoint)
    (h : l.Pairwise (fun p q => p.sec < q.sec)) :
    (fixFirst l).Pairwise (fun p q => p.sec < q.sec) := by
  cases l with
  | nil => simp [fixFirst]
  | cons p rest =>
    rcases List.pairwise_cons.mp h with ⟨hp, hrest⟩
    simp only [fixFirst]
    split
    · rename_i hpos
      refine List.pairwise_cons.mpr ⟨?_, h⟩
      intro z hz
      rcases List.mem_cons.mp hz with hz | hz
      · rw [hz]; exact hpos
      · exact Nat.lt_trans hpos (hp z hz)
    · rename_i hpos
      refine List.pairwise_cons.mpr ⟨?_, hrest⟩
      intro z hz
      have : p.sec = 0 := Nat.eq_zero_of_not_pos hpos
      have h2 := hp z hz
      simp only []
      omega

theorem fixFirst_mem (l : List MoodPoint) :
    ∀ z ∈ fixFirst l, z ∈ l ∨ z.sec = 0 := by
  cases l with
  | nil => intro z hz; cases hz
  | cons p rest =>
    intro z hz
    simp only [fixFirst] at hz
    split at hz
    · rcases List.mem_cons.mp hz with hz | hz
      · exact Or.inr (hz ▸ rfl)
      · exact Or.inl hz
    · rcases List.mem_cons.mp hz with hz | hz
      · exact Or.inr (hz ▸ rfl)
      · exact Or.inl (List.mem_cons_of_mem p hz)

/-- Structure of the cleaned control points: they always begin at second 0,
end at second `D`, and are strictly increasing (same-second duplicates are
gone). -/
theorem moodControlPoints_spec (md : List MoodRaw) (D : Nat) (hD : 1 ≤ D) :
    (moodControlPoints md D).head?.map MoodPoint.sec = some 0 ∧
    (moodControlPoints md D).getLast?.map MoodPoint.sec = some D ∧
    (moodControlPoints md D).Pairwise (fun p q => p.sec < q.sec) := by
  rcases hdd : dedupLast (sortByKey MoodPoint.sec (cleanMood md D)) with _ | ⟨p, rest⟩
  · have he : moodControlPoints md D = [⟨0, 50⟩, ⟨D, 50⟩] := by
      unfold moodControlPoints
      rw [hdd]
    rw [he]
    refine ⟨rfl, by simp, ?_⟩
    refine List.pairwise_cons.mpr ⟨?_, List.pairwise_singleton _ _⟩
    intro z hz
    rw [List.mem_singleton.mp hz]
    exact hD
  · have he : moodControlPoints md D = fixLast D (fixFirst (p :: rest)) := by
      unfold moodControlPoints
      rw [hdd]
    have hsort := sortByKey_pairwise MoodPoint.sec (cleanMood md D)
    have hltP : (p :: rest).Pairwise (fun a b => a.sec < b.sec) := by
      rw [← hdd]
      exact dedupLast_pairwise_lt _ hsort
    have hleD : ∀ z ∈ p :: rest, z.sec ≤ D := by
      intro z hz
      rw [← hdd] at hz
      have hz2 := dedupLast_subset _ z hz
      have hz3 := (sortByKey_perm MoodPoint.sec (cleanMood md D)).mem_iff.mp hz2
      exact cleanMood_sec_le md D z hz3
    obtain ⟨q, qs, hq, hq0⟩ : ∃ q qs, fixFirst (p :: rest) = q :: qs ∧
        q = (⟨0, p.value⟩ : MoodPoint) := by
      simp only [fixFirst]
      split
      · exact ⟨_, _, rfl, rfl⟩
      · exact ⟨_, _, rfl, rfl⟩
    have hff_pw : (q :: qs).Pairwise (fun a b => a.sec < b.sec) := by
      rw [← hq]
      exact fixFirst_pairwise _ hltP
    have hff_le : ∀ z ∈ q :: qs, z.sec ≤ D := by
      intro z hz
      rw [← hq] at hz
      rcases fixFirst_mem _ z hz with h1 | h1
      · exact hleD z h1
      · omega
    rw [he, hq]
    refine ⟨?_, ?_, ?_⟩
    · rw [fixLast_head D q qs (by rw [hq0]; exact hD)]
      rw [hq0]
      rfl
    · exact fixLast_getLast D (q :: qs) (List.cons_ne_nil q qs)
    · exact fixLast_pairwise D (q :: qs) hff_le hff_pw

/-- All-default control points when every mood entry is discarded. -/
theorem moodControlPoints_default (md : List MoodRaw) (D : Nat)
    (h : ∀ r ∈ md, r.sec = none ∨ r.value = none) :
    moodControlPoints md D = [⟨0, 50⟩, ⟨D, 50⟩] := by
  have hclean : cleanMood md D = [] := by
    unfold cleanMood
    rw [List.filterMap_eq_nil_iff]
    intro r hr
    rcases h r hr with h1 | h1
    · rw [h1]
    · rcases hs : r.sec with _ | s
      · rfl
      · rw [h1]
  unfold moodControlPoints
  rw [hclean]
  rfl

/-- Rounding and clamping a constant-`v` fraction `(v*s, s)` gives back
`v` for `v` in `[0, 100]`. -/
theorem round_clamp_const (v s : Int) (hs : 0 < s) (hv0 : 0 ≤ v)
    (hv1 : v ≤ 100) : (clampI (jsRoundFrac (v * s) s) 0 100).toNat = v.toNat := by
  have hr : jsRoundFrac (v * s) s = v := by
    unfold jsRoundFrac
    exact ediv_eq_of_bounds _ _ v (by omega) (by nlinarith) (by nlinarith)
  rw [hr]
  unfold clampI
  omega

/-- Interpolating anywhere between two control points that both hold 50
yields 50 after rounding and clamping. -/
theorem interp_default_round (Dm t : Nat) :
    (clampI (jsRoundFrac (interpolateMoodValue [⟨0, 50⟩, ⟨Dm, 50⟩] t).1
      (interpolateMoodValue [⟨0, 50⟩, ⟨Dm, 50⟩] t).2) 0 100).toNat = 50 := by
  simp only [interpolateMoodValue, interpGo]
  split
  · decide
  · split
    · split
      · decide
      · rename_i h1 h2 h3
        have hDm : 0 < Dm := by
          simp only [not_le] at h3
          omega
        have hnum : ((50 : Nat) : Int) * ((Dm : Int) - ((0 : Nat) : Int)) +
            (((50 : Nat) : Int) - ((50 : Nat) : Int)) * ((t : Int) - ((0 : Nat) : Int)) =
            50 * ((Dm : Int) - ((0 : Nat) : Int)) := by
          push_cast
          ring
        rw [hnum]
        have hspos : (0 : Int) < (Dm : Int) - ((0 : Nat) : Int) := by
          push_cast
          omega
        rw [round_clamp_const 50 _ hspos (by omega) (by omega)]
        rfl
    · decide

/-- C9: the mood normalizer clamps each control-point time into `[0, D]` and
rounds its value, deduplicates same-second points keeping the later value,
forces boundary control points at `t = 0` and `t = D` reusing the nearest
surviving value when none exists at the boundary (so the control points
always start at 0, end at `D` and are strictly increasing), and returns
exactly `clamp(round(D/12), 20, 30)` samples obtained by piecewise-linear
interpolation between the cleaned control points; in particular, for mood
input `[{30s, 80}]` with duration 60s the synthesized boundary points at 0s
and 60s both carry value 80 (and every resampled value is 80). -/
theorem normalize_mood_spec :
    (∀ (md : List MoodRaw) (D : Nat),
      (normalizeMoodData md D).length = moodTargetCount (max 1 D)) ∧
    (∀ (md : List MoodRaw) (D : Nat),
      (moodControlPoints md (max 1 D)).head?.map MoodPoint.sec = some 0 ∧
      (moodControlPoints md (max 1 D)).getLast?.map MoodPoint.sec = some (max 1 D) ∧
      (moodControlPoints md (max 1 D)).Pairwise (fun p q => p.sec < q.sec)) ∧
    moodControlPoints [{ sec := some 30, value := some 80 }] 60 =
      [⟨0, 80⟩, ⟨30, 80⟩, ⟨60, 80⟩] ∧
    moodControlPoints [{ sec := some 10, value := some 20 },
        { sec := some 10, value := some 70 }] 60 =
      [⟨0, 70⟩, ⟨10, 70⟩, ⟨60, 70⟩] ∧
    (normalizeMoodData [{ sec := some 30, value := some 80 }] 60).map
        MoodPoint.value = List.replicate 20 80 := by
  refine ⟨?_, ?_, by decide, by decide, by decide⟩
  · intro md D
    simp only [normalizeMoodData, List.length_map, List.length_range]
  · intro md D
    exact moodControlPoints_spec md (max 1 D) (le_max_left 1 D)

/-- C10: if the mood input list is empty or every entry is discarded as
malformed (non-finite time or value), the normalizer still returns the full
resampled grid of `clamp(round(D/12), 20, 30)` samples spanning second 0 to
the (floored-at-1) source duration, every one carrying the default value
50. -/
theorem mood_default_grid (md : List MoodRaw) (D : Nat)
    (h : ∀ r ∈ md, r.sec = none ∨ r.value = none) :
    (normalizeMoodData md D).length = moodTargetCount (max 1 D) ∧
    (∀ p ∈ normalizeMoodData md D, p.value = 50) ∧
    (normalizeMoodData md D).head?.map MoodPoint.sec = some 0 ∧
    (normalizeMoodData md D).getLast?.map MoodPoint.sec = some (max 1 D) := by
  have hcp := moodControlPoints_default md (max 1 D) h
  have htc : 20 ≤ moodTargetCount (max 1 D) := by
    unfold moodTargetCount clampI
    have h1 : (20 : Int) ≤ min 30 (max 20 (jsRoundFrac ((max 1 D : Nat) : Int) 12)) :=
      le_min (by norm_num) (le_max_left _ _)
    omega
  obtain ⟨k, hk⟩ : ∃ k, moodTargetCount (max 1 D) = k + 1 :=
    ⟨moodTargetCount (max 1 D) - 1, by omega⟩
  have hk19 : 19 ≤ k := by omega
  refine ⟨?_, ?_, ?_, ?_⟩
  · simp only [normalizeMoodData, List.length_map, List.length_range]
  · intro p hp
    simp only [normalizeMoodData, hcp] at hp
    rcases List.mem_map.mp hp with ⟨i, _, hpi⟩
    rw [← hpi]
    exact interp_default_round (max 1 D) _
  · have hz : jsRoundFrac ((0 * max 1 D : Nat) : Int) ((k + 1 - 1 : Nat) : Int) = 0 := by
      have hk' : ((k + 1 - 1 : Nat) : Int) = (k : Int) := by push_cast; omega
      unfold jsRoundFrac
      rw [hk']
      exact Int.ediv_eq_zero_of_lt (by push_cast; omega) (by push_cast; omega)
    have hrange := List.range_succ_eq_map k
    simp only [normalizeMoodData, hcp, hk, hrange, List.map_cons, List.head?_cons,
      Option.map_some']
    rw [if_neg (show ¬(0 = k + 1 - 1) by omega), hz]
    rfl
  · simp only [normalizeMoodData, hcp, hk, List.range_succ, List.map_append,
      List.map_cons, List.map_nil, List.getLast?_concat, Option.map_some']
    rw [if_pos (show k = k + 1 - 1 by omega)]

/-- Witness for C10: a single malformed entry and duration 60s. -/
theorem mood_default_grid_witness :
    (normalizeMoodData [{ sec := none, value := some 5 }] 60).length = 20 ∧
    (∀ p ∈ normalizeMoodData [{ sec := none, value := some 5 }] 60, p.value = 50) ∧
    (normalizeMoodData [{ sec := none, value := some 5 }] 60).head?.map
      MoodPoint.sec = some 0 ∧
    (normalizeMoodData [{ sec := none, value := some 5 }] 60).getLast?.map
      MoodPoint.sec = some 60 := by
  have h := mood_default_grid [{ sec := none, value := some 5 }] 60
    (by intro r hr; rcases List.mem_singleton.mp hr with h1; rw [h1]; exact Or.inl rfl)
  refine ⟨?_, h.2.1, h.2.2.1, h.2.2.2⟩
  rw [h.1]
  decide

/-! ### Sortedness and disjointness of the trimmed cut -/

theorem stage1Trim_subset (ai : List Segment) (fs : List Friend)
    (scs : List SceneryMoment) : ∀ s ∈ stage1Trim ai fs scs, s ∈ ai := by
  intro s hs
  simp only [stage1Trim] at hs
  rw [(sortByKey_perm Segment.start _).mem_iff] at hs
  have hfold : ∀ (l : List Segment) (st : List Segment × Int),
      ∀ z ∈ (l.foldl
        (fun (st : List Segment × Int) clip =>
          if st.2 + segDur clip ≤ 120 then (st.1 ++ [clip], st.2 + segDur clip) else st)
        st).1, z ∈ st.1 ∨ z ∈ l := by
    intro l
    induction l with
    | nil => intro st z hz; exact Or.inl hz
    | cons c l ih =>
      intro st z hz
      simp only [List.foldl_cons] at hz
      rcases ih _ z hz with h1 | h1
      · by_cases hc : st.2 + segDur c ≤ 120
        · rw [if_pos hc] at h1
          rcases List.mem_append.mp h1 with h2 | h2
          · exact Or.inl h2
          · exact Or.inr ((List.mem_singleton.mp h2) ▸ List.mem_cons_self c l)
        · rw [if_neg hc] at h1
          exact Or.inl h1
      · exact Or.inr (List.mem_cons_of_mem c h1)
  rcases hfold _ ([], 0) s hs with h | h
  · cases h
  · exact (sortByKeyDesc_perm _ ai).mem_iff.mp h

theorem foodFold_shape (D b : Nat) (es : List FoodEvent) (segs : List Segment) :
    ∀ seg ∈ es.foldl (foodStep D b) segs,
      seg ∈ segs ∨ ∃ e ∈ es, seg = mkFoodSegment D b e.timestamp := by
  induction es generalizing segs with
  | nil => intro seg hseg; exact Or.inl hseg
  | cons e0 es' ih =>
    intro seg hseg
    simp only [List.foldl_cons] at hseg
    rcases ih (foodStep D b segs e0) seg hseg with h | ⟨e, he, hee⟩
    · unfold foodStep at h
      split at h
      · exact Or.inl h
      · rcases List.mem_append.mp h with h2 | h2
        · exact Or.inl h2
        · exact Or.inr ⟨e0, List.mem_cons_self e0 es', List.mem_singleton.mp h2⟩
    · exact Or.inr ⟨e, List.mem_cons_of_mem e0 he, hee⟩

theorem ensureFriends_wf (fs : List Friend) (segs : List Segment) (D b : Nat)
    (hw : WfSegs segs) (hb : ∀ f ∈ fs, ∀ o ∈ f.timestamps, o.time ≤ D) :
    WfSegs (ensureFriendsInHighlights fs segs D b) := by
  unfold ensureFriendsInHighlights
  split
  · exact hw
  · refine mergeOverlappingSegments_wf _ ?_
    intro s hs
    rw [(sortByKey_perm Segment.start _).mem_iff] at hs
    rcases addFriendSegments_shape D b fs segs s hs with h | ⟨f, hf, o, ho, he⟩
    · exact hw s h
    · rw [he]
      unfold mkFriendSegment
      dsimp only
      exact le_trans (Nat.sub_le _ _) (le_min (hb f hf o ho) (Nat.le_add_right _ _))

theorem ensureScenery_wf (scs : List SceneryMoment) (segs : List Segment) (D b : Nat)
    (hw : WfSegs segs) (hb : ∀ sc ∈ scs, sc.timestamp ≤ D) :
    WfSegs (ensureSceneryInHighlights scs segs D b) := by
  unfold ensureSceneryInHighlights
  split
  · exact hw
  · refine mergeOverlappingSegments_wf _ ?_
    intro s hs
    rw [(sortByKey_perm Segment.start _).mem_iff] at hs
    rcases sceneryFold_shape D b _ segs s hs with h | ⟨sc, hsc, h1, h2⟩
    · rcases List.mem_map.mp h with ⟨s0, hs0, hspan⟩
      have h1 := congrArg Prod.fst hspan
      have h2 := congrArg Prod.snd hspan
      simp only [span] at h1 h2
      rw [← h1, ← h2]
      exact hw s0 hs0
    · have hd := hb sc (List.mem_filter.mp hsc).1
      rw [h1, h2]
      exact le_trans (Nat.sub_le _ _) (le_min hd (Nat.le_add_right _ _))

theorem ensureFood_wf (es : List FoodEvent) (segs : List Segment) (D b : Nat)
    (hw : WfSegs segs) (hb : ∀ e ∈ es, e.timestamp ≤ D) :
    WfSegs (ensureFoodInHighlights es segs D b) := by
  unfold ensureFoodInHighlights
  split
  · exact hw
  · refine mergeOverlappingSegments_wf _ ?_
    intro s hs
    rw [(sortByKey_perm Segment.start _).mem_iff] at hs
    rcases foodFold_shape D b es segs s hs with h | ⟨e, he, hee⟩
    · exact hw s h
    · rw [hee]
      unfold mkFoodSegment
      exact le_trans (Nat.sub_le _ _) (le_min (hb e he) (Nat.le_add_right _ _))

theorem ensureSafety_wf (als : List SafetyAlert) (segs : List Segment) (D b : Nat)
    (hw : WfSegs segs) (hb : ∀ a ∈ als, a.timestamp ≤ D) :
    WfSegs (ensureSafetyAlertsInHighlights als segs D b) := by
  unfold ensureSafetyAlertsInHighlights
  split
  · exact hw
  · refine mergeOverlappingSegments_wf _ ?_
    intro s hs
    rw [(sortByKey_perm Segment.start _).mem_iff] at hs
    rcases safetyFold_shape D b als segs s hs with h | ⟨a, ha, hee⟩
    · exact hw s h
    · rw [hee]
      unfold mkSafetySegment
      dsimp only
      exact le_trans (Nat.sub_le _ _) (le_min (hb a ha) (Nat.le_add_right _ _))

theorem guarantorStage_wf (fs : List Friend) (scs : List SceneryMoment)
    (es : List FoodEvent) (als : List SafetyAlert) (D : Nat) (hl : List Segment)
    (hw : WfSegs hl)
    (hfr : ∀ f ∈ fs, ∀ o ∈ f.timestamps, o.time ≤ D)
    (hsc : ∀ sc ∈ scs, sc.timestamp ≤ D)
    (hfo : ∀ e ∈ es, e.timestamp ≤ D)
    (hal : ∀ a ∈ als, a.timestamp ≤ D) :
    WfSegs (guarantorStage fs scs es als D hl) := by
  unfold guarantorStage
  exact ensureSafety_wf _ _ _ _
    (ensureFood_wf _ _ _ _
      (ensureScenery_wf _ _ _ _
        (ensureFriends_wf _ _ _ _ hw hfr) hsc) hfo) hal

/-- Every guarantor pass whose event list is nonempty ends in sort-and-merge,
so its output has pairwise gaps greater than 2 seconds. -/
theorem guarantorStage_gap (fs : List Friend) (scs : List SceneryMoment)
    (es : List FoodEvent) (als : List SafetyAlert) (D : Nat) (hl : List Segment)
    (hne : fs ≠ [] ∨ scs ≠ [] ∨ es ≠ [] ∨ als ≠ []) :
    (guarantorStage fs scs es als D hl).Pairwise
      (fun a b => a.stop + 2 < b.start) := by
  unfold guarantorStage
  by_cases hals : als = []
  · unfold ensureSafetyAlertsInHighlights
    rw [if_pos hals]
    by_cases hes : es = []
    · unfold ensureFoodInHighlights
      rw [if_pos hes]
      by_cases hscs : scs = []
      · unfold ensureSceneryInHighlights
        rw [if_pos hscs]
        by_cases hfs : fs = []
        · exact absurd hne (by simp [hfs, hscs, hes, hals])
        · unfold ensureFriendsInHighlights
          rw [if_neg hfs]
          exact mergeOverlappingSegments_gap _ (sortByKey_pairwise Segment.start _)
      · unfold ensureSceneryInHighlights
        rw [if_neg hscs]
        exact mergeOverlappingSegments_gap _ (sortByKey_pairwise Segment.start _)
    · unfold ensureFoodInHighlights
      rw [if_neg hes]
      exact mergeOverlappingSegments_gap _ (sortByKey_pairwise Segment.start _)
  · unfold ensureSafetyAlertsInHighlights
    rw [if_neg hals]
    exact mergeOverlappingSegments_gap _ (sortByKey_pairwise Segment.start _)

theorem gap_wf_sorted (l : List Segment)
    (hg : l.Pairwise (fun a b => a.stop + 2 < b.start)) (hw : WfSegs l) :
    SortedStart l := by
  refine List.Pairwise.imp_of_mem ?_ hg
  intro a b ha _ hab
  have := hw a ha
  omega

theorem gap_wf_start_lt (l : List Segment)
    (hg : l.Pairwise (fun a b => a.stop + 2 < b.start)) (hw : WfSegs l) :
    l.Pairwise (fun a b => a.start < b.start) := by
  refine List.Pairwise.imp_of_mem ?_ hg
  intro a b ha _ hab
  have := hw a ha
  omega

theorem gap_mem (l : List Segment)
    (hg : l.Pairwise (fun a b => a.stop + 2 < b.start)) (hw : WfSegs l) :
    ∀ x ∈ l, ∀ y ∈ l, x.start < y.start → x.stop + 2 < y.start := by
  induction l with
  | nil => intro x hx; cases hx
  | cons hd t ih =>
    rcases List.pairwise_cons.mp hg with ⟨hh, ht⟩
    intro x hx y hy hxy
    rcases List.mem_cons.mp hx with hx | hx <;> rcases List.mem_cons.mp hy with hy | hy
    · rw [hx, hy] at hxy
      exact absurd hxy (lt_irrefl _)
    · rw [hx]
      exact hh y hy
    · exfalso
      have h1 := hh x hx
      have h2 := hw hd (List.mem_cons_self hd t)
      rw [hy] at hxy
      omega
    · exact ih ht (fun z hz => hw z (List.mem_cons_of_mem hd hz)) x hx y hy hxy

/-- Each Stage-2 iteration either drops the clip, keeps it unchanged, or
keeps it with the end pulled back (never past the original end, never before
the start). -/
theorem stage2Step_kept_cases (st : Stage2State) (c : Segment) :
    (stage2Step st c).kept = st.kept ∨
    (stage2Step st c).kept = st.kept ++ [c] ∨
    ∃ c', (stage2Step st c).kept = st.kept ++ [c'] ∧ c'.start = c.start ∧
      c.start ≤ c'.stop ∧ c'.stop ≤ c.stop := by
  unfold stage2Step
  dsimp only
  by_cases hover : 120 < st.current + segDur c
  · rw [if_pos hover]
    by_cases hsafe : c.source = Source.safety ∧ 3 ≤ 120 - st.current
    · rw [if_pos hsafe]
      dsimp only
      split
      · right; right
        refine ⟨_, rfl, rfl, Nat.le_add_right _ _, ?_⟩
        have h3 : (3 : Int) ≤ 120 - st.current := hsafe.2
        have hd : 120 - st.current < segDur c := by omega
        simp only [segDur] at hd
        rw [max_eq_right h3]
        show c.start + (120 - st.current).toNat ≤ c.stop
        omega
      · left; rfl
    · rw [if_neg hsafe]
      by_cases honly : (decide (c.source = Source.friend) &&
          (match c.friendName with
           | some n => !(st.friendsIncluded.contains n)
           | none => false)) = true ∧ (3 : Int) ≤ 120 - st.current
      · rw [if_pos honly]
        dsimp only
        split
        · right; right
          refine ⟨_, rfl, rfl, Nat.le_add_right _ _, ?_⟩
          have h3 : (3 : Int) ≤ 120 - st.current := honly.2
          have hd : 120 - st.current < segDur c := by omega
          simp only [segDur] at hd
          rw [max_eq_right h3]
          show c.start + (120 - st.current).toNat ≤ c.stop
          omega
        · left; rfl
      · rw [if_neg honly]
        dsimp only
        split
        · right; left; rfl
        · left; rfl
  · rw [if_neg hover]
    dsimp only
    split
    · right; left; rfl
    · left; rfl

theorem stage2Fold_kept (l : List Segment) (st : Stage2State) :
    ∀ k ∈ (l.foldl stage2Step st).kept,
      k ∈ st.kept ∨ ∃ m ∈ l, k.start = m.start ∧ k.stop ≤ m.stop ∧
        (m.start ≤ m.stop → k.start ≤ k.stop) := by
  induction l generalizing st with
  | nil => intro k hk; exact Or.inl hk
  | cons c l ih =>
    intro k hk
    simp only [List.foldl_cons] at hk
    rcases ih (stage2Step st c) k hk with h | ⟨m, hm, hms⟩
    · rcases stage2Step_kept_cases st c with hc | hc | ⟨c', hc, h1, h2, h3⟩
      · rw [hc] at h
        exact Or.inl h
      · rw [hc] at h
        rcases List.mem_append.mp h with h2 | h2
        · exact Or.inl h2
        · refine Or.inr ⟨c, List.mem_cons_self c l, ?_⟩
          rw [List.mem_singleton.mp h2]
          exact ⟨rfl, le_refl _, id⟩
      · rw [hc] at h
        rcases List.mem_append.mp h with h4 | h4
        · exact Or.inl h4
        · refine Or.inr ⟨c, List.mem_cons_self c l, ?_⟩
          rw [List.mem_singleton.mp h4]
          exact ⟨h1, h3, fun _ => h1 ▸ h2⟩
    · exact Or.inr ⟨m, List.mem_cons_of_mem c hm, hms⟩

theorem stage2Fold_starts (l : List Segment) (st : Stage2State) :
    ∃ s, (l.foldl stage2Step st).kept.map Segment.start =
        st.kept.map Segment.start ++ s ∧ List.Sublist s (l.map Segment.start) := by
  induction l generalizing st with
  | nil => exact ⟨[], by simp, List.nil_sublist _⟩
  | cons c l ih =>
    rcases ih (stage2Step st c) with ⟨s, hs, hsub⟩
    simp only [List.foldl_cons]
    rcases stage2Step_kept_cases st c with hc | hc | ⟨c', hc, h1, _, _⟩
    · rw [hc] at hs
      exact ⟨s, hs, hsub.cons c.start⟩
    · rw [hc] at hs
      refine ⟨c.start :: s, ?_, hsub.cons₂ c.start⟩
      rw [hs, List.map_append]
      simp
    · rw [hc] at hs
      refine ⟨c.start :: s, ?_, hsub.cons₂ c.start⟩
      rw [hs, List.map_append]
      simp [h1]

theorem stage2Trim_disjoint (hl : List Segment)
    (hg : hl.Pairwise (fun a b => a.stop + 2 < b.start)) (hw : WfSegs hl) :
    (stage2Trim hl).Pairwise (fun a b => a.stop < b.start) := by
  unfold stage2Trim
  dsimp only
  have hpermSP : List.Perm (sortByKeyDesc getPriority hl) hl := sortByKeyDesc_perm _ _
  have hkept_origin : ∀ k ∈ ((sortByKeyDesc getPriority hl).foldl stage2Step
      ⟨[], 0, []⟩).kept,
      ∃ m ∈ hl, k.start = m.start ∧ k.stop ≤ m.stop ∧ k.start ≤ k.stop := by
    intro k hk
    rcases stage2Fold_kept _ ⟨[], 0, []⟩ k hk with h | ⟨m, hm, h1, h2, h3⟩
    · cases h
    · have hmhl := hpermSP.mem_iff.mp hm
      exact ⟨m, hmhl, h1, h2, h1 ▸ h3 (hw m hmhl)⟩
  have hstarts_lt := gap_wf_start_lt hl hg hw
  have hnodupG : (hl.map Segment.start).Nodup := by
    refine List.Pairwise.imp ?_ (List.pairwise_map.mpr hstarts_lt)
    intro a b hab
    omega
  have hnodupSP : ((sortByKeyDesc getPriority hl).map Segment.start).Nodup :=
    ((hpermSP.map Segment.start).nodup_iff).mpr hnodupG
  have hnodupK : (((sortByKeyDesc getPriority hl).foldl stage2Step
      ⟨[], 0, []⟩).kept.map Segment.start).Nodup := by
    rcases stage2Fold_starts (sortByKeyDesc getPriority hl) ⟨[], 0, []⟩ with ⟨s, hs, hsub⟩
    rw [hs]
    simp only [List.map_nil, List.nil_append]
    exact hsub.nodup hnodupSP
  have hout_perm := sortByKey_perm Segment.start
    ((sortByKeyDesc getPriority hl).foldl stage2Step ⟨[], 0, []⟩).kept
  have hsorted := sortByKey_pairwise Segment.start
    ((sortByKeyDesc getPriority hl).foldl stage2Step ⟨[], 0, []⟩).kept
  have hnodupOut := ((hout_perm.map Segment.start).nodup_iff).mpr hnodupK
  have hneq : (sortByKey Segment.start ((sortByKeyDesc getPriority hl).foldl stage2Step
      ⟨[], 0, []⟩).kept).Pairwise (fun a b => a.start ≠ b.start) :=
    List.pairwise_map.mp hnodupOut
  refine List.Pairwise.imp_of_mem ?_ (hsorted.and hneq)
  intro a b ha hb hab
  have haK := hout_perm.mem_iff.mp ha
  have hbK := hout_perm.mem_iff.mp hb
  rcases hkept_origin a haK with ⟨ma, hma, ha1, ha2, ha3⟩
  rcases hkept_origin b hbK with ⟨mb, hmb, hb1, hb2, hb3⟩
  have hlt : a.start < b.start := lt_of_le_of_ne hab.1 hab.2
  have hmlt : ma.start < mb.start := by
    rw [← ha1, ← hb1]
    exact hlt
  have hgapab := gap_mem hl hg hw ma hma mb hmb hmlt
  have hbs : mb.start = b.start := hb1.symm
  omega

theorem budgetStage_disjoint (hl : List Segment)
    (hg : hl.Pairwise (fun a b => a.stop + 2 < b.start)) (hw : WfSegs hl) :
    (budgetStage hl).Pairwise (fun a b => a.stop < b.start) := by
  unfold budgetStage
  split
  · exact stage2Trim_disjoint hl hg hw
  · refine List.Pairwise.imp ?_ hg
    intro a b hab
    omega

theorem budgetStage_sorted (hl : List Segment)
    (hg : hl.Pairwise (fun a b => a.stop + 2 < b.start)) (hw : WfSegs hl) :
    SortedStart (budgetStage hl) := by
  unfold budgetStage
  split
  · unfold stage2Trim
    dsimp only
    exact sortByKey_pairwise Segment.start _
  · exact gap_wf_sorted hl hg hw

theorem sceneryFallback_sorted (scs : List SceneryMoment) (D : Nat)
    (hl : List Segment) (hs : SortedStart hl) :
    SortedStart (sceneryFallback scs D hl) := by
  simp only [sceneryFallback]
  split
  · exact hs
  · split
    · exact hs
    · split
      · exact hs
      · split
        · exact hs
        · split
          · exact sortByKey_pairwise Segment.start _
          · exact hs

/-- C3 amended: provided at least one event class is nonempty (so a
sort-and-merge pass runs) and the annotations are well-formed (candidate
spans have start at most end, event timestamps within the duration), the
final HighlightCut is sorted ascending by start, and the cut before the
Zero-Coverage Fallback is pairwise non-overlapping; the fallback's inserted
segment may overlap its neighbours (see the counterexample), and with all
event classes empty the raw candidate list passes through unchanged. -/
theorem sorted_disjoint_amended (ai : List Segment) (fs : List Friend)
    (scs : List SceneryMoment) (es : List FoodEvent) (als : List SafetyAlert)
    (D : Nat)
    (hwf : ∀ s ∈ ai, s.start ≤ s.stop)
    (hfr : ∀ f ∈ fs, ∀ o ∈ f.timestamps, o.time ≤ D)
    (hsc : ∀ sc ∈ scs, sc.timestamp ≤ D)
    (hfo : ∀ e ∈ es, e.timestamp ≤ D)
    (hal : ∀ a ∈ als, a.timestamp ≤ D)
    (hne : fs ≠ [] ∨ scs ≠ [] ∨ es ≠ [] ∨ als ≠ []) :
    (processHighlights ai fs scs es als D).Pairwise
      (fun a b => a.start ≤ b.start) ∧
    (processHighlightsCore ai fs scs es als D).Pairwise
      (fun a b => a.stop < b.start) := by
  have hwf0 : WfSegs (if 120 < totalDuration ai then stage1Trim ai fs scs else ai) := by
    split
    · intro s hs
      exact hwf s (stage1Trim_subset ai fs scs s hs)
    · exact hwf
  have hsc' : ∀ sc ∈ scs.map capStay, sc.timestamp ≤ D := by
    intro sc hsc2
    rcases List.mem_map.mp hsc2 with ⟨sc0, hsc0, hc⟩
    rw [← hc]
    unfold capStay
    split
    · exact hsc sc0 hsc0
    · exact hsc sc0 hsc0
  have hne' : fs ≠ [] ∨ scs.map capStay ≠ [] ∨ es ≠ [] ∨ als ≠ [] := by
    rcases hne with h | h | h | h
    · exact Or.inl h
    · right; left; simpa using h
    · right; right; left; exact h
    · right; right; right; exact h
  have hG_gap := guarantorStage_gap fs (scs.map capStay) es als D
    (if 120 < totalDuration ai then stage1Trim ai fs scs else ai) hne'
  have hG_wf := guarantorStage_wf fs (scs.map capStay) es als D
    (if 120 < totalDuration ai then stage1Trim ai fs scs else ai) hwf0 hfr hsc' hfo hal
  have hcore_sorted : SortedStart (processHighlightsCore ai fs scs es als D) := by
    unfold processHighlightsCore
    exact budgetStage_sorted _ hG_gap hG_wf
  constructor
  · unfold processHighlights
    exact sceneryFallback_sorted _ _ _ hcore_sorted
  · unfold processHighlightsCore
    exact budgetStage_disjoint _ hG_gap hG_wf

/-- Witness for the amended C3 on the C6 scenario input. -/
theorem sorted_disjoint_amended_witness :
    (processHighlights [{ start := 0, stop := 10 }]
        [{ name := "Buddy", timestamps := [{ time := 60, duration := 4 }] }]
        [] [] [] 90).Pairwise (fun a b => a.start ≤ b.start) ∧
    (processHighlightsCore [{ start := 0, stop := 10 }]
        [{ name := "Buddy", timestamps := [{ time := 60, duration := 4 }] }]
        [] [] [] 90).Pairwise (fun a b => a.stop < b.start) :=
  sorted_disjoint_amended _ _ _ _ _ _ (by decide) (by decide) (by decide) (by decide)
    (by decide) (Or.inl (by decide))

end PetDay
